import Mathlib

/-!
Verification of the core algorithms of the Mexc_scanner repository.

All JavaScript numbers are modelled as exact rationals (`ℚ`); timestamps are
millisecond rationals (bucketing uses `ℤ` with floor division, mirroring
`Math.floor`).  Per-symbol `Map`s are modelled as functions
`String → Option _`; `map.get(k) ?? d` becomes `(m k).getD d` and
`map.get(k) || 0` becomes `(m k).getD 0` (absent and `0` coincide, exactly as
in the source).
-/

namespace MexcScanner

/-- A symbol is an opaque string identifier. -/
abbrev Symbol := String

/-! ## Spike detector (src/src/spikeEngine.js, `SpikeEngine`)

The same algorithm appears in `src/index.js` (class `SpikeEngine`) and in the
other worker variants; `src/src/spikeEngine.js` additionally computes
`dt = Math.max(1, Math.round((ts - prev.ts)/1000))` and guards `dt <= 0`
(never true, since `dt ≥ 1`); we embed that version verbatim. -/

/-- Constructor parameters of `SpikeEngine`:
`{ windowSec, minAbsPct, zMult, cooldownSec }`. -/
structure SpikeConfig where
  windowSec : ℚ
  minAbsPct : ℚ
  zMult : ℚ
  cooldownSec : ℚ
  deriving DecidableEq

/-- The three per-symbol maps of `SpikeEngine`: `last`, `ewmaAbs`, `coolUntil`. -/
structure SpikeState where
  last : Symbol → Option (ℚ × ℚ)
  ewmaAbs : Symbol → Option ℚ
  coolUntil : Symbol → Option ℚ

/-- Fresh engine: all three maps empty (`new Map()`). -/
def SpikeState.init : SpikeState :=
  { last := fun _ => none, ewmaAbs := fun _ => none, coolUntil := fun _ => none }

/-- Direction of a spike: `pct >= 0 ? 'UP' : 'DOWN'`. -/
inductive Direction where
  | UP
  | DOWN
  deriving DecidableEq, Repr

/-- Return value of `SpikeEngine.update` when it is not `null`:
either `{ isSpike: false }` or
`{ isSpike: true, absPct, zScore, direction }` (`zScore = none` models the
`Infinity` sentinel used when `ewma = 0`). -/
inductive SpikeOut where
  | noSpike
  | spike (absPct : ℚ) (zScore : Option ℚ) (dir : Direction)
  deriving DecidableEq, Repr

/-- The `isSpike` field of the returned object. -/
def SpikeOut.isSpike : SpikeOut → Bool
  | .noSpike => false
  | .spike _ _ _ => true

/-- `map.set(sym, v)` on a per-symbol map. -/
def setMap {α : Type} (m : Symbol → Option α) (sym : Symbol) (v : α) :
    Symbol → Option α :=
  fun s => if s = sym then some v else m s

@[simp] lemma setMap_self {α : Type} (m : Symbol → Option α) (sym : Symbol) (v : α) :
    setMap m sym v sym = some v := by
  simp [setMap]

lemma setMap_ne {α : Type} (m : Symbol → Option α) (sym : Symbol) (v : α)
    {s : Symbol} (h : s ≠ sym) : setMap m sym v s = m s := by
  simp [setMap, h]

/-- The smoothing factor `const a = 2/(this.windowSec + 1)`. -/
def spikeAlpha (cfg : SpikeConfig) : ℚ := 2 / (cfg.windowSec + 1)

/-- `const ewma = alpha*absPct + (1-alpha)*base` where
`base = this.ewmaAbs.get(symbol) ?? absPct`. -/
def spikeEwmaNext (cfg : SpikeConfig) (st : SpikeState) (sym : Symbol) (ap : ℚ) : ℚ :=
  spikeAlpha cfg * ap + (1 - spikeAlpha cfg) * ((st.ewmaAbs sym).getD ap)

/-- `SpikeEngine.update(symbol, price, ts)` — src/src/spikeEngine.js lines
11–35, with the map mutations made explicit.  Returns the updated state and
the JS return value (`none` models `null`). -/
def updateSpike (cfg : SpikeConfig) (st : SpikeState) (sym : Symbol)
    (price ts : ℚ) : SpikeState × Option SpikeOut :=
  let prev := st.last sym
  let stL : SpikeState := { st with last := setMap st.last sym (price, ts) }
  match prev with
  | none => (stL, none)
  | some (pp, pt) =>
    if pp ≤ 0 then (stL, none)
    else
      let dt : ℤ := max 1 (round ((ts - pt) / 1000))
      if dt ≤ 0 then (stL, none)
      else
        let pc := (price - pp) / pp
        let ap := |pc|
        let ew := spikeEwmaNext cfg st sym ap
        let stE : SpikeState := { stL with ewmaAbs := setMap st.ewmaAbs sym ew }
        let th := max cfg.minAbsPct (cfg.zMult * ew)
        if ap < th then (stE, some .noSpike)
        else if ts < (st.coolUntil sym).getD 0 then (stE, some .noSpike)
        else
          ({ stE with
              coolUntil := setMap st.coolUntil sym (ts + cfg.cooldownSec * 1000) },
            some (.spike ap (if 0 < ew then some (ap / ew) else none)
              (if 0 ≤ pc then .UP else .DOWN)))

/-- One incoming tick as fed to the spike engine. -/
structure Tick where
  sym : Symbol
  price : ℚ
  ts : ℚ
  deriving DecidableEq

/-- Feed a list of ticks through the engine, collecting each call's
return value. -/
def runSpike (cfg : SpikeConfig) (st : SpikeState) :
    List Tick → SpikeState × List (Option SpikeOut)
  | [] => (st, [])
  | t :: ts =>
    let p := updateSpike cfg st t.sym t.price t.ts
    let r := runSpike cfg p.1 ts
    (r.1, p.2 :: r.2)

/-! ### Branch lemmas for `updateSpike` -/

lemma updateSpike_last_self (cfg : SpikeConfig) (st : SpikeState) (sym : Symbol)
    (p ts : ℚ) : ((updateSpike cfg st sym p ts).1).last sym = some (p, ts) := by
  unfold updateSpike
  cases hprev : st.last sym with
  | none => simp
  | some pr =>
    obtain ⟨pp, pt⟩ := pr
    by_cases h1 : pp ≤ 0
    · simp [h1]
    · simp only [h1]
      split_ifs <;> simp

lemma updateSpike_out_none_prev (cfg : SpikeConfig) (st : SpikeState) (sym : Symbol)
    (p ts : ℚ) (hprev : st.last sym = none) :
    (updateSpike cfg st sym p ts).2 = none := by
  unfold updateSpike
  simp [hprev]

lemma updateSpike_out_same_price (cfg : SpikeConfig) (hfloor : 0 < cfg.minAbsPct)
    (st : SpikeState) (sym : Symbol) (p pt ts : ℚ)
    (hprev : st.last sym = some (p, pt)) :
    (updateSpike cfg st sym p ts).2 = none ∨
      (updateSpike cfg st sym p ts).2 = some .noSpike := by
  unfold updateSpike
  simp only [hprev]
  by_cases h1 : p ≤ 0
  · simp [h1]
  · have hap : |(p - p) / p| <
        max cfg.minAbsPct (cfg.zMult * spikeEwmaNext cfg st sym (|(p - p) / p|)) := by
      have h0 : |(p - p) / p| = 0 := by simp
      rw [h0]
      exact lt_max_of_lt_left hfloor
    simp only [h1, if_false]
    split_ifs <;> simp_all

/-- `update` touches `coolUntil` only when it fires; when it fires, the call's
timestamp is past the stored cooldown and the cooldown is re-armed to
`ts + cooldownSec*1000`. -/
lemma updateSpike_cool (cfg : SpikeConfig) (st : SpikeState) (sym : Symbol)
    (p ts : ℚ) :
    ((updateSpike cfg st sym p ts).1.coolUntil = st.coolUntil ∧
      ∀ ap z d, (updateSpike cfg st sym p ts).2 ≠ some (.spike ap z d)) ∨
    ((∃ ap z d, (updateSpike cfg st sym p ts).2 = some (.spike ap z d)) ∧
      (st.coolUntil sym).getD 0 ≤ ts ∧
      (updateSpike cfg st sym p ts).1.coolUntil =
        setMap st.coolUntil sym (ts + cfg.cooldownSec * 1000)) := by
  unfold updateSpike
  cases hprev : st.last sym with
  | none => left; simp
  | some pr =>
    obtain ⟨pp, pt⟩ := pr
    by_cases h1 : pp ≤ 0
    · left; simp [h1]
    · simp only [h1, if_false]
      by_cases h2 : ((max 1 (round ((ts - pt) / 1000)) : ℤ) ≤ 0)
      · left; simp [h2]
      · by_cases h3 : |(p - pp) / pp| <
            max cfg.minAbsPct (cfg.zMult * spikeEwmaNext cfg st sym (|(p - pp) / pp|))
        · left; simp [h2, h3]
        · by_cases h4 : ts < (st.coolUntil sym).getD 0
          · left; simp [h2, h3, h4]
          · rw [if_neg h2, if_neg h3, if_neg h4]
            right
            exact ⟨⟨_, _, _, rfl⟩, le_of_not_lt h4, rfl⟩

/-- `update` touches `ewmaAbs` only after passing the `prev`/price guards, and
then sets the symbol's entry to `spikeEwmaNext`. -/
lemma updateSpike_ewma (cfg : SpikeConfig) (st : SpikeState) (sym : Symbol)
    (p ts : ℚ) :
    (updateSpike cfg st sym p ts).1.ewmaAbs = st.ewmaAbs ∨
    (∃ pp pt, st.last sym = some (pp, pt) ∧ ¬ pp ≤ 0 ∧
      (updateSpike cfg st sym p ts).1.ewmaAbs =
        setMap st.ewmaAbs sym (spikeEwmaNext cfg st sym (|(p - pp) / pp|))) := by
  unfold updateSpike
  cases hprev : st.last sym with
  | none => left; simp
  | some pr =>
    obtain ⟨pp, pt⟩ := pr
    by_cases h1 : pp ≤ 0
    · left; simp [h1]
    · simp only [h1, if_false]
      split_ifs with h2 h3 h4
      · left; simp
      all_goals exact Or.inr ⟨pp, pt, rfl, h1, rfl⟩

lemma spikeAlpha_pos (cfg : SpikeConfig) (hw : 1 ≤ cfg.windowSec) :
    0 < spikeAlpha cfg := by
  have : (0:ℚ) < cfg.windowSec + 1 := by linarith
  exact div_pos (by norm_num) this

lemma spikeAlpha_le_one (cfg : SpikeConfig) (hw : 1 ≤ cfg.windowSec) :
    spikeAlpha cfg ≤ 1 := by
  rw [spikeAlpha, div_le_one (by linarith)]
  linarith

lemma spikeEwmaNext_nonneg (cfg : SpikeConfig) (st : SpikeState) (sym : Symbol)
    (ap : ℚ) (h0 : 0 ≤ spikeAlpha cfg) (h1 : spikeAlpha cfg ≤ 1) (hap : 0 ≤ ap)
    (hb : 0 ≤ (st.ewmaAbs sym).getD ap) : 0 ≤ spikeEwmaNext cfg st sym ap := by
  unfold spikeEwmaNext
  have := mul_nonneg h0 hap
  have := mul_nonneg (by linarith : (0:ℚ) ≤ 1 - spikeAlpha cfg) hb
  linarith

lemma spikeEwmaNext_le_max (cfg : SpikeConfig) (st : SpikeState) (sym : Symbol)
    (ap M : ℚ) (h0 : 0 ≤ spikeAlpha cfg) (h1 : spikeAlpha cfg ≤ 1)
    (hb : (st.ewmaAbs sym).getD ap ≤ max M ap) :
    spikeEwmaNext cfg st sym ap ≤ max M ap := by
  unfold spikeEwmaNext
  have hap : ap ≤ max M ap := le_max_right M ap
  nlinarith [mul_le_mul_of_nonneg_left hap h0,
    mul_le_mul_of_nonneg_left hb (by linarith : (0:ℚ) ≤ 1 - spikeAlpha cfg)]

/-- The heart of C10: because the EWMA is updated with the current tick's
`absPct` before thresholding, `zMult * ewma` strictly dominates a positive
`absPct` whenever `zMult * alpha > 1`. -/
lemma spikeEwmaNext_dominates (cfg : SpikeConfig) (st : SpikeState) (sym : Symbol)
    (ap : ℚ) (hz : 1 < cfg.zMult * spikeAlpha cfg) (h1 : spikeAlpha cfg ≤ 1)
    (h0 : 0 < spikeAlpha cfg) (hap : 0 < ap) (hb : 0 ≤ (st.ewmaAbs sym).getD ap) :
    ap < cfg.zMult * spikeEwmaNext cfg st sym ap := by
  unfold spikeEwmaNext
  have hzpos : 0 < cfg.zMult := by
    by_contra h
    push_neg at h
    nlinarith
  nlinarith [mul_nonneg (mul_nonneg hzpos.le (by linarith : (0:ℚ) ≤ 1 - spikeAlpha cfg)) hb]

/-- Under the C10 hypotheses no call of `update` can return a spike. -/
lemma updateSpike_no_fire (cfg : SpikeConfig) (st : SpikeState) (sym : Symbol)
    (p ts : ℚ) (hw : 1 ≤ cfg.windowSec) (hfloor : 0 < cfg.minAbsPct)
    (hz : 1 < cfg.zMult * spikeAlpha cfg)
    (hinv : ∀ s e, st.ewmaAbs s = some e → 0 ≤ e) :
    ∀ o, (updateSpike cfg st sym p ts).2 = some o → o.isSpike = false := by
  intro o ho
  have h0 := spikeAlpha_pos cfg hw
  have h1 := spikeAlpha_le_one cfg hw
  unfold updateSpike at ho
  cases hprev : st.last sym with
  | none => rw [hprev] at ho; simp at ho
  | some pr =>
    obtain ⟨pp, pt⟩ := pr
    rw [hprev] at ho
    by_cases hpp : pp ≤ 0
    · simp [hpp] at ho
    · simp only [hpp, if_false] at ho
      have hb : 0 ≤ (st.ewmaAbs sym).getD (|(p - pp) / pp|) := by
        cases he : st.ewmaAbs sym with
        | none => simp [he]
        | some e => simpa [he] using hinv sym e he
      have hth : |(p - pp) / pp| <
          max cfg.minAbsPct (cfg.zMult * spikeEwmaNext cfg st sym (|(p - pp) / pp|)) := by
        rcases lt_or_eq_of_le (abs_nonneg ((p - pp) / pp)) with hap | hap
        · exact lt_max_of_lt_right
            (spikeEwmaNext_dominates cfg st sym _ hz h1 h0 hap hb)
        · rw [← hap]; exact lt_max_of_lt_left hfloor
      by_cases h2 : ((max 1 (round ((ts - pt) / 1000)) : ℤ) ≤ 0)
      · rw [if_pos h2] at ho
        simp at ho
      · rw [if_neg h2, if_pos hth] at ho
        simp only [Option.some.injEq] at ho
        rw [← ho]
        rfl

lemma runSpike_nil (cfg : SpikeConfig) (st : SpikeState) :
    runSpike cfg st [] = (st, []) := rfl

lemma runSpike_cons (cfg : SpikeConfig) (st : SpikeState) (t : Tick) (rest : List Tick) :
    runSpike cfg st (t :: rest) =
      ((runSpike cfg (updateSpike cfg st t.sym t.price t.ts).1 rest).1,
        (updateSpike cfg st t.sym t.price t.ts).2 ::
          (runSpike cfg (updateSpike cfg st t.sym t.price t.ts).1 rest).2) := rfl

lemma updateSpike_pres_ewma_nonneg (cfg : SpikeConfig) (st : SpikeState)
    (sym : Symbol) (p ts : ℚ) (hw : 1 ≤ cfg.windowSec)
    (hinv : ∀ s e, st.ewmaAbs s = some e → 0 ≤ e) :
    ∀ s e, ((updateSpike cfg st sym p ts).1).ewmaAbs s = some e → 0 ≤ e := by
  rcases updateSpike_ewma cfg st sym p ts with h | ⟨pp, pt, hprev, hpp, h⟩
  · rw [h]; exact hinv
  · rw [h]
    intro s e he
    by_cases hs : s = sym
    · subst hs
      rw [setMap_self] at he
      obtain rfl := Option.some.inj he
      refine spikeEwmaNext_nonneg cfg st s _ (spikeAlpha_pos cfg hw).le
        (spikeAlpha_le_one cfg hw) (abs_nonneg _) ?_
      cases hb : st.ewmaAbs s with
      | none => simp [hb]
      | some e0 => simpa [hb] using hinv s e0 hb
    · rw [setMap_ne _ _ _ hs] at he
      exact hinv s e he

/-- C10 amended, run form: under a nonnegative EWMA invariant no call in the
run fires. -/
lemma runSpike_no_fire_aux (cfg : SpikeConfig) (hw : 1 ≤ cfg.windowSec)
    (hfloor : 0 < cfg.minAbsPct) (hz : 1 < cfg.zMult * spikeAlpha cfg) :
    ∀ (ticks : List Tick) (st : SpikeState),
      (∀ s e, st.ewmaAbs s = some e → 0 ≤ e) →
      ∀ o ∈ (runSpike cfg st ticks).2, ∀ so, o = some so → so.isSpike = false := by
  intro ticks
  induction ticks with
  | nil => intro st _ o ho; rw [runSpike_nil] at ho; simp at ho
  | cons t rest ih =>
    intro st hinv o ho so hso
    rw [runSpike_cons] at ho
    rcases List.mem_cons.mp ho with h | h
    · subst h
      exact updateSpike_no_fire cfg st t.sym t.price t.ts hw hfloor hz hinv so hso
    · exact ih (updateSpike cfg st t.sym t.price t.ts).1
        (updateSpike_pres_ewma_nonneg cfg st t.sym t.price t.ts hw hinv) o h so hso

/-- C10 (amended): with `minAbsPct > 0`, `windowSec ≥ 1` and
`zMult * (2/(windowSec+1)) > 1` (which includes the spec example
`window=5, zMultiplier=4`), the spike detector never returns
`isSpike = true` on any tick sequence of positive prices: the EWMA is
updated with the current tick's `absPct` before the threshold comparison, so
the threshold always strictly dominates `absPct`. -/
theorem spike_never_fires_amended (cfg : SpikeConfig) (hw : 1 ≤ cfg.windowSec)
    (hfloor : 0 < cfg.minAbsPct) (hz : 1 < cfg.zMult * spikeAlpha cfg)
    (ticks : List Tick) (_hpos : ∀ t ∈ ticks, 0 < t.price) :
    ∀ o ∈ (runSpike cfg SpikeState.init ticks).2, ∀ so, o = some so →
      so.isSpike = false :=
  runSpike_no_fire_aux cfg hw hfloor hz ticks SpikeState.init (by intro s e h; simp [SpikeState.init] at h)

/-- C10 witness: the amended theorem applied at the spec's example
configuration (`window=5, floor=0.003, zMult=4`) and the example ticks. -/
theorem spike_never_fires_amended_witness :
    SpikeOut.isSpike .noSpike = false :=
  spike_never_fires_amended ⟨5, 3/1000, 4, 45⟩ (by norm_num) (by norm_num)
    (by norm_num [spikeAlpha])
    [⟨"BTC_USDT", 100, 0⟩, ⟨"BTC_USDT", 201/2, 1000⟩, ⟨"BTC_USDT", 107, 2000⟩]
    (by norm_num [List.forall_mem_cons]) (some .noSpike)
    (by norm_num [runSpike_cons, runSpike_nil, updateSpike, spikeEwmaNext, spikeAlpha, setMap, SpikeState.init, round_eq, abs_eq_max_neg, max_def]) .noSpike rfl

/-- C10 counterexample to the claim as stated: it quantifies over every
configuration with `minAbsPct > 0` and `zMult * (2/(window+1)) > 1`; with
`window = 0` (so `alpha = 2`), `zMult = 3/4` both conditions hold, yet the
second tick of a positive-price sequence fires. -/
theorem spike_fires_despite_zalpha_cex :
    (0:ℚ) < 3/1000 ∧ (1:ℚ) < (3/4) * (2 / ((0:ℚ) + 1)) ∧
    (0:ℚ) < 1 ∧ (0:ℚ) < 2 ∧
    (runSpike ⟨0, 3/1000, 3/4, 45⟩ SpikeState.init
        [⟨"S", 1, 0⟩, ⟨"S", 2, 1000⟩]).2 =
      [none, some (.spike 1 (some 1) .UP)] := by
  refine ⟨by norm_num, by norm_num, by norm_num, by norm_num, by norm_num [runSpike_cons, runSpike_nil, updateSpike, spikeEwmaNext, spikeAlpha, setMap, SpikeState.init, round_eq, abs_eq_max_neg, max_def]⟩

/-- C1: evaluating the code on the spec's example scenario
(`prices 100, 100.5, 107` at `t = 0s, 1s, 2s` with `floor=0.003`,
`zMult=4`, `window=5`).  The second tick does not fire, as the spec says —
but the third tick does *not* fire either (the spec requires
`{direction: UP}` there): the threshold `4×ewma` is computed from an EWMA
already containing the current `absPct`, so it exceeds `absPct`. -/
theorem spike_example_scenario_eval :
    (runSpike ⟨5, 3/1000, 4, 45⟩ SpikeState.init
        [⟨"BTC_USDT", 100, 0⟩, ⟨"BTC_USDT", 201/2, 1000⟩, ⟨"BTC_USDT", 107, 2000⟩]).2 =
      [none, some .noSpike, some .noSpike] := by
  norm_num [runSpike_cons, runSpike_nil, updateSpike, spikeEwmaNext, spikeAlpha, setMap, SpikeState.init, round_eq, abs_eq_max_neg, max_def]

/-! ### C7: EWMA bounds -/

/-- The successive `absPct` values of a constant-symbol price sequence,
starting from previous price `p0`. -/
def absPcts (p0 : ℚ) : List ℚ → List ℚ
  | [] => []
  | q :: rest => |(q - p0) / p0| :: absPcts q rest

lemma runSpike_ewma_bound (cfg : SpikeConfig) (sym : Symbol)
    (h0 : 0 < spikeAlpha cfg) (h1 : spikeAlpha cfg ≤ 1) :
    ∀ (qs : List (ℚ × ℚ)) (st : SpikeState) (pp pt M : ℚ), 0 < pp → 0 ≤ M →
      (∀ q ∈ qs, 0 < q.1) →
      st.last sym = some (pp, pt) →
      (st.ewmaAbs sym = none ∨ ∃ e, st.ewmaAbs sym = some e ∧ 0 ≤ e ∧ e ≤ M) →
      ∀ e, ((runSpike cfg st (qs.map fun q => ⟨sym, q.1, q.2⟩)).1).ewmaAbs sym = some e →
        0 ≤ e ∧ e ≤ (absPcts pp (qs.map Prod.fst)).foldl max M := by
  intro qs
  induction qs with
  | nil =>
    intro st pp pt M hpp hM hq hlast hew e he
    rw [List.map_nil, runSpike_nil] at he
    rcases hew with h | ⟨e0, h, h0e, heM⟩
    · rw [h] at he; exact absurd he (by simp)
    · rw [h] at he
      obtain rfl := Option.some.inj he
      exact ⟨h0e, by simpa [absPcts] using heM⟩
  | cons q rest ih =>
    intro st pp pt M hpp hM hq hlast hew e he
    rw [List.map_cons, runSpike_cons] at he
    set ap := |(q.1 - pp) / pp| with hap
    have hapnn : 0 ≤ ap := abs_nonneg _
    have hMax : 0 ≤ max M ap := le_trans hM (le_max_left M ap)
    have hlast1 : ((updateSpike cfg st sym q.1 q.2).1).last sym = some (q.1, q.2) :=
      updateSpike_last_self cfg st sym q.1 q.2
    have hew1 : ((updateSpike cfg st sym q.1 q.2).1).ewmaAbs sym = none ∨
        ∃ e1, ((updateSpike cfg st sym q.1 q.2).1).ewmaAbs sym = some e1 ∧
          0 ≤ e1 ∧ e1 ≤ max M ap := by
      rcases updateSpike_ewma cfg st sym q.1 q.2 with h | ⟨pp2, pt2, hprev2, hpp2, h⟩
      · rw [h]
        rcases hew with h2 | ⟨e0, h2, h0e, heM⟩
        · exact Or.inl h2
        · exact Or.inr ⟨e0, h2, h0e, le_trans heM (le_max_left M ap)⟩
      · right
        rw [hlast] at hprev2
        obtain ⟨rfl, rfl⟩ : pp2 = pp ∧ pt2 = pt := by
          have h := (Option.some.inj hprev2).symm
          exact ⟨congrArg Prod.fst h, congrArg Prod.snd h⟩
        rw [h, setMap_self]
        refine ⟨_, rfl, ?_, ?_⟩
        · refine spikeEwmaNext_nonneg cfg st sym _ h0.le h1 hapnn ?_
          rcases hew with h2 | ⟨e0, h2, h0e, _⟩
          · simp [h2, hapnn]
          · simpa [h2] using h0e
        · refine spikeEwmaNext_le_max cfg st sym _ M h0.le h1 ?_
          rcases hew with h2 | ⟨e0, h2, h0e, heM⟩
          · simp only [h2, Option.getD_none]
            exact le_max_right M ap
          · simp only [h2, Option.getD_some]
            exact le_trans heM (le_max_left M ap)
    have hq1 : 0 < q.1 := hq q (List.mem_cons_self q rest)
    have hrest : ∀ r ∈ rest, 0 < r.1 := fun r hr => hq r (List.mem_cons_of_mem q hr)
    have := ih (updateSpike cfg st sym q.1 q.2).1 q.1 q.2 (max M ap) hq1 hMax
      hrest hlast1 hew1 e he
    simpa [absPcts, List.foldl_cons] using this

/-- C7 (amended): for `windowSec ≥ 1` (so `0 < alpha ≤ 1`) and any sequence
of positive-price ticks for one symbol, the stored `ewmaAbs` stays within
`[0, max absPct observed so far]` (it is seeded with the first observed
`absPct` and every step is the convex combination
`alpha*absPct + (1-alpha)*previous`). -/
theorem ewma_bounds_amended (cfg : SpikeConfig) (hw : 1 ≤ cfg.windowSec)
    (sym : Symbol) (p0 t0 : ℚ) (hp0 : 0 < p0) (qs : List (ℚ × ℚ))
    (hq : ∀ q ∈ qs, 0 < q.1) :
    ∀ e, ((runSpike cfg SpikeState.init
        (⟨sym, p0, t0⟩ :: qs.map fun q => ⟨sym, q.1, q.2⟩)).1).ewmaAbs sym = some e →
      0 ≤ e ∧ e ≤ (absPcts p0 (qs.map Prod.fst)).foldl max 0 := by
  intro e he
  rw [runSpike_cons] at he
  have hfirst : updateSpike cfg SpikeState.init sym p0 t0 =
      ({ SpikeState.init with last := setMap SpikeState.init.last sym (p0, t0) }, none) := rfl
  rw [hfirst] at he
  exact runSpike_ewma_bound cfg sym (spikeAlpha_pos cfg hw) (spikeAlpha_le_one cfg hw)
    qs _ p0 t0 0 hp0 le_rfl hq (by simp) (Or.inl rfl) e he

/-- C7 witness: the amended theorem at `window=5`, prices `100` then `101`:
the stored EWMA is `1/100`, inside `[0, max observed absPct]`. -/
theorem ewma_bounds_amended_witness :
    (0:ℚ) ≤ 1/100 ∧ (1/100 : ℚ) ≤ (absPcts 100 [101]).foldl max 0 :=
  ewma_bounds_amended ⟨5, 3/1000, 4, 45⟩ (by norm_num) "S" 100 0 (by norm_num)
    [(101, 1000)] (by norm_num [List.forall_mem_cons]) (1/100)
    (by norm_num [runSpike_cons, runSpike_nil, updateSpike, spikeEwmaNext, spikeAlpha, setMap, SpikeState.init, round_eq, abs_eq_max_neg, max_def])

/-- C7 counterexample to the claim as stated (every configuration): with
`windowSec = 0` the smoothing factor is `alpha = 2`, and for the
positive-price sequence `1, 2, 2` the stored EWMA becomes `-1`,
violating the claimed lower bound `0`. -/
theorem ewma_bounds_cex :
    ((runSpike ⟨0, 3/1000, 3/4, 45⟩ SpikeState.init
        [⟨"S", 1, 0⟩, ⟨"S", 2, 1000⟩, ⟨"S", 2, 2000⟩]).1).ewmaAbs "S" = some (-1) ∧
    ¬ ((0:ℚ) ≤ -1) ∧ (0:ℚ) < 1 ∧ (0:ℚ) < 2 := by
  refine ⟨by norm_num [runSpike_cons, runSpike_nil, updateSpike, spikeEwmaNext, spikeAlpha, setMap, SpikeState.init, round_eq, abs_eq_max_neg, max_def], by norm_num, by norm_num, by norm_num⟩

/-! ### C8: a zero price change -/

lemma runSpike_const_price (cfg : SpikeConfig) (hfloor : 0 < cfg.minAbsPct)
    (sym : Symbol) (p : ℚ) :
    ∀ (tss : List ℚ) (st : SpikeState),
      (st.last sym = none ∨ ∃ t0, st.last sym = some (p, t0)) →
      ∀ o ∈ (runSpike cfg st (tss.map fun ts => ⟨sym, p, ts⟩)).2,
        ∀ so, o = some so → so.isSpike = false := by
  intro tss
  induction tss with
  | nil => intro st _ o ho; rw [List.map_nil, runSpike_nil] at ho; simp at ho
  | cons ts rest ih =>
    intro st hstart o ho so hso
    rw [List.map_cons, runSpike_cons] at ho
    rcases List.mem_cons.mp ho with h | h
    · subst h
      rcases hstart with h2 | ⟨t0, h2⟩
      · rw [updateSpike_out_none_prev cfg st sym p ts h2] at hso
        exact absurd hso (by simp)
      · rcases updateSpike_out_same_price cfg hfloor st sym p t0 ts h2 with h3 | h3 <;>
          rw [h3] at hso
        · exact absurd hso (by simp)
        · obtain rfl := Option.some.inj hso
          rfl
    · exact ih (updateSpike cfg st sym p ts).1
        (Or.inr ⟨ts, updateSpike_last_self cfg st sym p ts⟩) o h so hso

/-- C8 (amended): with a *strictly positive* floor `minAbsPct`, an update
whose price equals the symbol's previous observed price never returns
`isSpike = true`; consequently a symbol whose ticks all carry the same price
never fires. -/
theorem spike_zero_pct_never_fires_amended :
    (∀ (cfg : SpikeConfig), 0 < cfg.minAbsPct →
      ∀ (st : SpikeState) (sym : Symbol) (p pt ts : ℚ), st.last sym = some (p, pt) →
        ∀ o, (updateSpike cfg st sym p ts).2 = some o → o.isSpike = false) ∧
    (∀ (cfg : SpikeConfig), 0 < cfg.minAbsPct →
      ∀ (sym : Symbol) (p : ℚ) (tss : List ℚ),
        ∀ o ∈ (runSpike cfg SpikeState.init (tss.map fun ts => ⟨sym, p, ts⟩)).2,
          ∀ so, o = some so → so.isSpike = false) := by
  constructor
  · intro cfg hfloor st sym p pt ts hprev o ho
    rcases updateSpike_out_same_price cfg hfloor st sym p pt ts hprev with h | h <;>
      rw [h] at ho
    · exact absurd ho (by simp)
    · obtain rfl := Option.some.inj ho
      rfl
  · intro cfg hfloor sym p tss
    exact runSpike_const_price cfg hfloor sym p tss SpikeState.init
      (Or.inl rfl)

/-- C8 witness: the amended theorem at `floor=0.003` for two equal-price
ticks. -/
theorem spike_zero_pct_never_fires_witness :
    (0:ℚ) < 3/1000 ∧ SpikeOut.isSpike .noSpike = false :=
  ⟨by norm_num,
    spike_zero_pct_never_fires_amended.1 ⟨5, 3/1000, 4, 45⟩ (by norm_num)
      (updateSpike ⟨5, 3/1000, 4, 45⟩ SpikeState.init "S" 5 0).1 "S" 5 0 1000
      (by simp [updateSpike, SpikeState.init, setMap]) .noSpike
      (by norm_num [runSpike_cons, runSpike_nil, updateSpike, spikeEwmaNext, spikeAlpha, setMap, SpikeState.init, round_eq, abs_eq_max_neg, max_def])⟩

/-- C8 counterexample to the claim as stated (it allows `minAbsPctFloor ≥ 0`,
hence `= 0`): with floor `0` the threshold can be `0`, and a tick whose price
equals the previous price (`pct = 0`) fires, because the code fires on
`absPct ≥ threshold`. -/
theorem spike_zero_pct_fires_cex :
    (0:ℚ) ≤ 0 ∧
    (runSpike ⟨1, 0, 1, 45⟩ SpikeState.init
        [⟨"S", 5, 0⟩, ⟨"S", 5, 1000⟩]).2 =
      [none, some (.spike 0 none .UP)] := by
  refine ⟨le_rfl, by norm_num [runSpike_cons, runSpike_nil, updateSpike, spikeEwmaNext, spikeAlpha, setMap, SpikeState.init, round_eq, abs_eq_max_neg, max_def]⟩

/-! ### C2: cooldown enforcement -/

/-- One `update` call never lowers the effective cooldown of any symbol
(for a nonnegative `cooldownSec`). -/
lemma updateSpike_cool_mono (cfg : SpikeConfig) (st : SpikeState) (sym : Symbol)
    (p ts : ℚ) (hC : 0 ≤ cfg.cooldownSec) (s : Symbol) :
    (st.coolUntil s).getD 0 ≤ (((updateSpike cfg st sym p ts).1).coolUntil s).getD 0 := by
  rcases updateSpike_cool cfg st sym p ts with ⟨heq, _⟩ | ⟨_, hle, heq⟩
  · rw [heq]
  · rw [heq]
    by_cases hs : s = sym
    · subst hs
      rw [setMap_self, Option.getD_some]
      have : 0 ≤ cfg.cooldownSec * 1000 := by positivity
      linarith
    · rw [setMap_ne _ _ _ hs]

/-- A fire at position `j` of a run can only happen at a timestamp past the
initial state's stored cooldown for that symbol. -/
lemma runSpike_fire_ge_cool (cfg : SpikeConfig) (hC : 0 ≤ cfg.cooldownSec)
    (s : Symbol) :
    ∀ (ticks : List Tick) (st : SpikeState) (j : ℕ) (tj : Tick) (oj : SpikeOut),
      ticks[j]? = some tj → tj.sym = s →
      ((runSpike cfg st ticks).2)[j]? = some (some oj) → oj.isSpike = true →
      (st.coolUntil s).getD 0 ≤ tj.ts := by
  intro ticks
  induction ticks with
  | nil => intro st j tj oj h; simp at h
  | cons t rest ih =>
    intro st j tj oj hja hjs hjo hjf
    rw [runSpike_cons] at hjo
    cases j with
    | zero =>
      obtain rfl : t = tj := by simpa using hja
      rw [List.getElem?_cons_zero] at hjo
      obtain hout := Option.some.inj hjo
      cases oj with
      | noSpike => simp [SpikeOut.isSpike] at hjf
      | spike ap z d =>
        rcases updateSpike_cool cfg st t.sym t.price t.ts with ⟨_, hne⟩ | ⟨_, hle, _⟩
        · exact absurd hout (hne ap z d)
        · rw [← hjs]
          exact hle
    | succ j0 =>
      rw [List.getElem?_cons_succ] at hja hjo
      calc (st.coolUntil s).getD 0
          ≤ (((updateSpike cfg st t.sym t.price t.ts).1).coolUntil s).getD 0 :=
            updateSpike_cool_mono cfg st t.sym t.price t.ts hC s
        _ ≤ tj.ts := ih (updateSpike cfg st t.sym t.price t.ts).1 j0 tj oj hja hjs hjo hjf

lemma runSpike_two_fires (cfg : SpikeConfig) (hC : 0 ≤ cfg.cooldownSec)
    (s : Symbol) :
    ∀ (ticks : List Tick) (st : SpikeState) (i j : ℕ), i < j →
      ∀ (ti tj : Tick) (oi oj : SpikeOut),
        ticks[i]? = some ti → ti.sym = s →
        ((runSpike cfg st ticks).2)[i]? = some (some oi) → oi.isSpike = true →
        ticks[j]? = some tj → tj.sym = s →
        ((runSpike cfg st ticks).2)[j]? = some (some oj) → oj.isSpike = true →
        ti.ts + cfg.cooldownSec * 1000 ≤ tj.ts := by
  intro ticks
  induction ticks with
  | nil => intro st i j _ ti tj oi oj h; simp at h
  | cons t rest ih =>
    intro st i j hij ti tj oi oj hia his hio hif hja hjs hjo hjf
    obtain ⟨j0, rfl⟩ : ∃ j0, j = j0 + 1 := ⟨j - 1, by omega⟩
    rw [runSpike_cons] at hio hjo
    rw [List.getElem?_cons_succ] at hja
    rw [List.getElem?_cons_succ] at hjo
    cases i with
    | zero =>
      obtain rfl : t = ti := by simpa using hia
      rw [List.getElem?_cons_zero] at hio
      obtain hout := Option.some.inj hio
      cases oi with
      | noSpike => simp [SpikeOut.isSpike] at hif
      | spike ap z d =>
        rcases updateSpike_cool cfg st t.sym t.price t.ts with ⟨_, hne⟩ | ⟨_, _, hcool⟩
        · exact absurd hout (hne ap z d)
        · have hge := runSpike_fire_ge_cool cfg hC s rest
            (updateSpike cfg st t.sym t.price t.ts).1 j0 tj oj hja hjs hjo hjf
          rw [hcool, ← his, setMap_self, Option.getD_some] at hge
          exact hge
    | succ i0 =>
      rw [List.getElem?_cons_succ] at hia hio
      exact ih (updateSpike cfg st t.sym t.price t.ts).1 i0 j0 (by omega)
        ti tj oi oj hia his hio hif hja hjs hjo hjf

/-- C2: for a nonnegative `cooldownSec`, any two calls of a run that both
return `isSpike = true` for the same symbol have timestamps at least
`cooldownSec × 1000` (milliseconds) apart: a fire at `t1` sets the block to
`t1 + cooldownSec*1000` and a later call can only fire at a timestamp `≥`
that block value. -/
theorem spike_cooldown_enforced (cfg : SpikeConfig) (hC : 0 ≤ cfg.cooldownSec)
    (st : SpikeState) (ticks : List Tick) (s : Symbol) (i j : ℕ) (hij : i < j)
    (ti tj : Tick) (oi oj : SpikeOut)
    (hia : ticks[i]? = some ti) (his : ti.sym = s)
    (hio : ((runSpike cfg st ticks).2)[i]? = some (some oi)) (hif : oi.isSpike = true)
    (hja : ticks[j]? = some tj) (hjs : tj.sym = s)
    (hjo : ((runSpike cfg st ticks).2)[j]? = some (some oj)) (hjf : oj.isSpike = true) :
    cfg.cooldownSec * 1000 ≤ tj.ts - ti.ts := by
  have := runSpike_two_fires cfg hC s ticks st i j hij ti tj oi oj
    hia his hio hif hja hjs hjo hjf
  linarith

/-- C2 witness: a run with two fires (`window=1`, `floor=0`, `zMult=1`,
`cooldown=1s`), fires at `t=1000ms` and `t=3000ms`, spaced `≥ 1000ms`. -/
theorem spike_cooldown_enforced_witness :
    ((runSpike ⟨1, 0, 1, 1⟩ SpikeState.init
        [⟨"S", 1, 0⟩, ⟨"S", 2, 1000⟩, ⟨"S", 4, 3000⟩]).2)[1]? =
      some (some (.spike 1 (some 1) .UP)) ∧
    ((runSpike ⟨1, 0, 1, 1⟩ SpikeState.init
        [⟨"S", 1, 0⟩, ⟨"S", 2, 1000⟩, ⟨"S", 4, 3000⟩]).2)[2]? =
      some (some (.spike 1 (some 1) .UP)) ∧
    (1:ℚ) * 1000 ≤ (3000:ℚ) - 1000 := by
  have houts : (runSpike ⟨1, 0, 1, 1⟩ SpikeState.init
      [⟨"S", 1, 0⟩, ⟨"S", 2, 1000⟩, ⟨"S", 4, 3000⟩]).2 =
      [none, some (.spike 1 (some 1) .UP), some (.spike 1 (some 1) .UP)] := by
    norm_num [runSpike_cons, runSpike_nil, updateSpike, spikeEwmaNext, spikeAlpha,
      setMap, SpikeState.init, round_eq, abs_eq_max_neg, max_def]
  refine ⟨by rw [houts]; simp, by rw [houts]; simp, ?_⟩
  exact spike_cooldown_enforced ⟨1, 0, 1, 1⟩ (by norm_num) SpikeState.init
    [⟨"S", 1, 0⟩, ⟨"S", 2, 1000⟩, ⟨"S", 4, 3000⟩] "S" 1 2 (by norm_num)
    ⟨"S", 2, 1000⟩ ⟨"S", 4, 3000⟩ (.spike 1 (some 1) .UP) (.spike 1 (some 1) .UP)
    rfl rfl (by rw [houts]; simp) rfl rfl rfl (by rw [houts]; simp) rfl

/-! ## Advisory trailing stop (src/src/index.js, `updateTrail` lines 146–167)

A per-`(symbol, side)` state `{ state:'armed'|'in_trail', entry, peak, trail }`
(`trail` is `null` until armed).  `onEntry` creates the state; a later call in
phase `armed` arms the trail after a favourable move of `startAfterPct`; in
phase `in_trail` a new favourable extreme moves `peak` and recomputes
`trail = peak*(1∓distancePct)`, and a price crossing `trail` deletes the
state (`onTrailExit`).  The JS comparison `price <= st.trail` coerces a
`null` trail to `0`; we model that with `Option.getD 0` (the `in_trail`
phase always has a trail in practice). -/

structure TrailConfig where
  startAfterPct : ℚ
  distancePct : ℚ
  deriving DecidableEq

inductive TrailPhase where
  | armed
  | inTrail
  deriving DecidableEq, Repr

structure TrailSt where
  phase : TrailPhase
  entry : ℚ
  peak : ℚ
  trail : Option ℚ
  deriving DecidableEq, Repr

/-- `onEntry`: `{ state:'armed', entry:price, peak:price, trail:null }`. -/
def trailEntry (price : ℚ) : TrailSt := ⟨.armed, price, price, none⟩

/-- One `updateTrail` call on an *existing* `(symbol, side)` state (the
`trails.get(key)` hit path).  Returns `none` exactly when the stop is hit
and the state deleted. -/
def stepTrail (cfg : TrailConfig) (isLong : Bool) (st : TrailSt) (price : ℚ) :
    Option TrailSt :=
  match st.phase with
  | .armed =>
    let fav := if isLong then (price - st.entry) / st.entry
               else (st.entry - price) / st.entry
    if fav ≥ cfg.startAfterPct then
      some { st with
              phase := .inTrail, peak := price,
              trail := some (if isLong then price * (1 - cfg.distancePct) else price * (1 + cfg.distancePct)) }
    else some st
  | .inTrail =>
    let st1 :=
      if isLong = true ∧ st.peak < price then
        { st with peak := price, trail := some (price * (1 - cfg.distancePct)) }
      else if isLong = false ∧ price < st.peak then
        { st with peak := price, trail := some (price * (1 + cfg.distancePct)) }
      else st
    let hit := if isLong then price ≤ st1.trail.getD 0 else st1.trail.getD 0 ≤ price
    if hit then none else some st1

/-- Run `stepTrail` over a price sequence, stopping (absorbing `none`) at an
EXIT: `runTrail … = some st1` says the state existed for the whole
sequence. -/
def runTrail (cfg : TrailConfig) (isLong : Bool) :
    TrailSt → List ℚ → Option TrailSt
  | st, [] => some st
  | st, p :: ps =>
    match stepTrail cfg isLong st p with
    | none => none
    | some st1 => runTrail cfg isLong st1 ps

/-- States reachable by the trailing-stop machine: in phase `armed` the peak
still equals the entry and no trail is set; in phase `in_trail` the trail is
exactly `peak*(1∓distancePct)`. -/
@[reducible] def TrailWF (cfg : TrailConfig) (isLong : Bool) (st : TrailSt) : Prop :=
  (st.phase = .armed → st.peak = st.entry ∧ st.trail = none) ∧
  (st.phase = .inTrail →
    st.trail = some (if isLong then st.peak * (1 - cfg.distancePct)
                     else st.peak * (1 + cfg.distancePct)))

lemma stepTrail_mono (cfg : TrailConfig) (isLong : Bool) (st st1 : TrailSt)
    (price : ℚ) (hs : 0 ≤ cfg.startAfterPct) (hd0 : 0 ≤ cfg.distancePct)
    (hd1 : cfg.distancePct ≤ 1) (he : 0 < st.entry)
    (hwf : TrailWF cfg isLong st)
    (h : stepTrail cfg isLong st price = some st1) :
    st1.entry = st.entry ∧ TrailWF cfg isLong st1 ∧
    (isLong = true → st.peak ≤ st1.peak ∧
      (∀ t, st.trail = some t → ∃ t1, st1.trail = some t1 ∧ t ≤ t1)) ∧
    (isLong = false → st1.peak ≤ st.peak ∧
      (∀ t, st.trail = some t → ∃ t1, st1.trail = some t1 ∧ t1 ≤ t)) := by
  obtain ⟨hwfA, hwfT⟩ := hwf
  unfold stepTrail at h
  cases hphase : st.phase with
  | armed =>
    rw [hphase] at h
    obtain ⟨hpeak, htrail⟩ := hwfA hphase
    simp only at h
    by_cases hfav : (if isLong then (price - st.entry) / st.entry
        else (st.entry - price) / st.entry) ≥ cfg.startAfterPct
    · rw [if_pos hfav] at h
      obtain rfl := Option.some.inj h
      refine ⟨rfl, ⟨by simp, by intro _; rfl⟩, ?_, ?_⟩
      · intro hlong
        rw [if_pos hlong] at hfav
        have hpe : st.entry ≤ price := by
          rw [ge_iff_le, le_div_iff₀ he] at hfav
          nlinarith
        refine ⟨by rw [hpeak]; simpa using hpe, ?_⟩
        rw [htrail]
        intro t ht
        cases ht
      · intro hshort
        rw [if_neg (by simp [hshort])] at hfav
        have hpe : price ≤ st.entry := by
          rw [ge_iff_le, le_div_iff₀ he] at hfav
          nlinarith
        refine ⟨by rw [hpeak]; simpa using hpe, ?_⟩
        rw [htrail]
        intro t ht
        cases ht
    · rw [if_neg hfav] at h
      obtain rfl := Option.some.inj h
      exact ⟨rfl, ⟨hwfA, hwfT⟩, fun _ => ⟨le_rfl, fun t ht => ⟨t, ht, le_rfl⟩⟩,
        fun _ => ⟨le_rfl, fun t ht => ⟨t, ht, le_rfl⟩⟩⟩
  | inTrail =>
    rw [hphase] at h
    have htr := hwfT hphase
    simp only at h
    have hrefl : ∀ st2 : TrailSt, st2 = st →
        st2.entry = st.entry ∧ TrailWF cfg isLong st2 ∧
        (isLong = true → st.peak ≤ st2.peak ∧
          (∀ t, st.trail = some t → ∃ t1, st2.trail = some t1 ∧ t ≤ t1)) ∧
        (isLong = false → st2.peak ≤ st.peak ∧
          (∀ t, st.trail = some t → ∃ t1, st2.trail = some t1 ∧ t1 ≤ t)) := by
      rintro _ rfl
      exact ⟨rfl, ⟨hwfA, hwfT⟩, fun _ => ⟨le_rfl, fun t ht => ⟨t, ht, le_rfl⟩⟩,
        fun _ => ⟨le_rfl, fun t ht => ⟨t, ht, le_rfl⟩⟩⟩
    by_cases hL : isLong = true
    · simp only [hL, eq_self_iff_true, if_true, true_and, reduceCtorEq, false_and,
        if_false, Option.getD_some] at h
      by_cases hmove : st.peak < price
      · simp only [hmove, if_true, Option.getD_some] at h
        split at h
        · cases h
        · obtain rfl := Option.some.inj h
          refine ⟨rfl, ⟨by simp, by simp [hL]⟩, ?_, ?_⟩
          · intro _
            refine ⟨le_of_lt hmove, fun t ht => ?_⟩
            rw [htr, if_pos hL] at ht
            obtain rfl := Option.some.inj ht
            refine ⟨price * (1 - cfg.distancePct), rfl, ?_⟩
            have h1d : 0 ≤ 1 - cfg.distancePct := by linarith
            nlinarith
          · intro hS
            rw [hS] at hL
            cases hL
      · simp only [hmove, if_false] at h
        split at h
        · cases h
        · exact hrefl st1 (Option.some.inj h).symm
    · have hF : isLong = false := by simpa using hL
      simp only [hF, eq_self_iff_true, if_true, true_and, reduceCtorEq, false_and,
        if_false, Option.getD_some] at h
      by_cases hmove2 : price < st.peak
      · simp only [hmove2, if_true, Option.getD_some] at h
        split at h
        · cases h
        · obtain rfl := Option.some.inj h
          refine ⟨rfl, ⟨by simp, by simp [hF]⟩, ?_, ?_⟩
          · intro hLT
            exact absurd hLT hL
          · intro _
            refine ⟨le_of_lt hmove2, fun t ht => ?_⟩
            rw [htr, if_neg (by simp [hF])] at ht
            obtain rfl := Option.some.inj ht
            refine ⟨price * (1 + cfg.distancePct), rfl, ?_⟩
            have h1d : 0 ≤ 1 + cfg.distancePct := by linarith
            nlinarith
      · simp only [hmove2, if_false] at h
        split at h
        · cases h
        · exact hrefl st1 (Option.some.inj h).symm

lemma runTrail_mono (cfg : TrailConfig) (isLong : Bool) (hs : 0 ≤ cfg.startAfterPct)
    (hd0 : 0 ≤ cfg.distancePct) (hd1 : cfg.distancePct ≤ 1) :
    ∀ (ps : List ℚ) (st st1 : TrailSt), 0 < st.entry → TrailWF cfg isLong st →
      runTrail cfg isLong st ps = some st1 →
      st1.entry = st.entry ∧ TrailWF cfg isLong st1 ∧
      (isLong = true → st.peak ≤ st1.peak ∧
        (∀ t, st.trail = some t → ∃ t1, st1.trail = some t1 ∧ t ≤ t1)) ∧
      (isLong = false → st1.peak ≤ st.peak ∧
        (∀ t, st.trail = some t → ∃ t1, st1.trail = some t1 ∧ t1 ≤ t)) := by
  intro ps
  induction ps with
  | nil =>
    intro st st1 he hwf h
    obtain rfl := Option.some.inj h
    exact ⟨rfl, hwf, fun _ => ⟨le_rfl, fun t ht => ⟨t, ht, le_rfl⟩⟩,
      fun _ => ⟨le_rfl, fun t ht => ⟨t, ht, le_rfl⟩⟩⟩
  | cons p ps ih =>
    intro st st1 he hwf h
    unfold runTrail at h
    cases hstep : stepTrail cfg isLong st p with
    | none => rw [hstep] at h; cases h
    | some st2 =>
      rw [hstep] at h
      obtain ⟨hent, hwf2, hlong2, hshort2⟩ :=
        stepTrail_mono cfg isLong st st2 p hs hd0 hd1 he hwf hstep
      obtain ⟨hent1, hwf1, hlong1, hshort1⟩ :=
        ih st2 st1 (hent ▸ he) hwf2 h
      refine ⟨hent1.trans hent, hwf1, ?_, ?_⟩
      · intro hL
        obtain ⟨hp2, ht2⟩ := hlong2 hL
        obtain ⟨hp1, ht1⟩ := hlong1 hL
        refine ⟨hp2.trans hp1, fun t ht => ?_⟩
        obtain ⟨t2, ht2e, ht2le⟩ := ht2 t ht
        obtain ⟨t1, ht1e, ht1le⟩ := ht1 t2 ht2e
        exact ⟨t1, ht1e, ht2le.trans ht1le⟩
      · intro hS
        obtain ⟨hp2, ht2⟩ := hshort2 hS
        obtain ⟨hp1, ht1⟩ := hshort1 hS
        refine ⟨hp1.trans hp2, fun t ht => ?_⟩
        obtain ⟨t2, ht2e, ht2le⟩ := ht2 t ht
        obtain ⟨t1, ht1e, ht1le⟩ := ht1 t2 ht2e
        exact ⟨t1, ht1e, ht1le.trans ht2le⟩

/-- C4: while a `(symbol, side)` trailing state exists (no EXIT along the
run), a long-side state's `peak` never decreases — across both the ARMED and
IN_TRAIL phases — and its `trail` (stop), once set, never decreases (it is
recomputed as `peak*(1-distancePct)` whenever the peak rises); symmetrically
a short-side state's `peak` and `trail` never increase.  Configurations have
`0 ≤ startAfterPct` and `0 ≤ distancePct ≤ 1`, states have a positive entry
and are reachable (`TrailWF`). -/
theorem trail_monotonicity (cfg : TrailConfig) (hs : 0 ≤ cfg.startAfterPct)
    (hd0 : 0 ≤ cfg.distancePct) (hd1 : cfg.distancePct ≤ 1) (isLong : Bool)
    (st st1 : TrailSt) (ps : List ℚ) (he : 0 < st.entry)
    (hwf : TrailWF cfg isLong st)
    (hrun : runTrail cfg isLong st ps = some st1) :
    (isLong = true → st.peak ≤ st1.peak ∧
      (∀ t, st.trail = some t → ∃ t1, st1.trail = some t1 ∧ t ≤ t1)) ∧
    (isLong = false → st1.peak ≤ st.peak ∧
      (∀ t, st.trail = some t → ∃ t1, st1.trail = some t1 ∧ t1 ≤ t)) := by
  obtain ⟨_, _, hL, hS⟩ := runTrail_mono cfg isLong hs hd0 hd1 ps st st1 he hwf hrun
  exact ⟨hL, hS⟩

/-- C4 witness: a long state entered at `1`, prices `1.01` then `1.02`
(defaults `startAfterPct=0.003`, `distancePct=0.004`); the state arms and
then trails up, peak `1 ≤ 1.02`. -/
theorem trail_monotonicity_witness :
    runTrail ⟨3/1000, 1/250⟩ true (trailEntry 1) [101/100, 51/50] =
      some ⟨.inTrail, 1, 51/50, some (12699/12500)⟩ ∧
    (trailEntry 1).peak ≤ (51:ℚ)/50 := by
  have hrun : runTrail ⟨3/1000, 1/250⟩ true (trailEntry 1) [101/100, 51/50] =
      some ⟨.inTrail, 1, 51/50, some (12699/12500)⟩ := by
    norm_num [runTrail, stepTrail, trailEntry]
  refine ⟨hrun, ?_⟩
  have h := (trail_monotonicity ⟨3/1000, 1/250⟩ (by norm_num) (by norm_num)
    (by norm_num) true (trailEntry 1) ⟨.inTrail, 1, 51/50, some (12699/12500)⟩
    [101/100, 51/50] (by norm_num [trailEntry])
    (by refine ⟨fun _ => ⟨rfl, rfl⟩, fun h => ?_⟩; simp [trailEntry] at h) hrun).1 rfl
  exact h.1

/-! ## Candle engine (src/src/index.js, `roll1m` lines 206–223 and
`aggregateN` lines 224–234)

`roll1m` buckets ticks into 1-minute bars `{t,o,h,l,c,v}` per symbol
(`v` counts ticks), keeping the open bar in `cur` and appending closed bars
to `m1` (capped at `CANDLE_1M_HISTORY`, oldest shifted out).  `aggregateN`
merges the last `n` closed 1-minute bars into one bar.  We parameterize the
roll by the bucket size: the source hardcodes `60000` ms; the spec (§4.3)
states the identical algorithm for any bucket size, which is what the C5
equivalence compares against. -/

structure Bar where
  t : ℤ
  o : ℚ
  h : ℚ
  l : ℚ
  c : ℚ
  v : ℕ
  deriving DecidableEq, Repr

structure Book where
  m1 : List Bar
  cur : Option Bar
  deriving DecidableEq, Repr

/-- `getBook`: a fresh `{ m1:[], cur:null }`. -/
def Book.empty : Book := ⟨[], none⟩

/-- `Math.floor(ts/bucketMs)*bucketMs` (floor division). -/
def bucketOf (bucketMs ts : ℤ) : ℤ := Int.fdiv ts bucketMs * bucketMs

/-- Update the open bar: `h=max(h,price); l=min(l,price); c=price; v+=1`. -/
def barStep (b : Bar) (p : ℚ) : Bar :=
  { b with h := max b.h p, l := min b.l p, c := p, v := b.v + 1 }

/-- Open a new bar `{ t:m, o:price, h:price, l:price, c:price, v:1 }`. -/
def mkBar (m : ℤ) (p : ℚ) : Bar := ⟨m, p, p, p, p, 1⟩

/-- `m1.push(cur); if (m1.length > CANDLE_1M_HISTORY) m1.shift()`. -/
def pushCap (cap : ℚ) (l : List Bar) (b : Bar) : List Bar :=
  let l1 := l ++ [b]
  if cap < (l1.length : ℚ) then l1.drop 1 else l1

/-- One tick of `roll1m` (for one symbol's book), with the bucket size as a
parameter (`roll1m = rollTick 60000`). -/
def rollTick (bucketMs : ℤ) (cap : ℚ) (bk : Book) (p : ℚ) (ts : ℤ) : Book :=
  let m := bucketOf bucketMs ts
  match bk.cur with
  | none => { bk with cur := some (mkBar m p) }
  | some cur =>
    if cur.t = m then { bk with cur := some (barStep cur p) }
    else { m1 := pushCap cap bk.m1 cur, cur := some (mkBar m p) }

def rollRun (bucketMs : ℤ) (cap : ℚ) : Book → List (ℚ × ℤ) → Book
  | bk, [] => bk
  | bk, q :: qs => rollRun bucketMs cap (rollTick bucketMs cap bk q.1 q.2) qs

/-- `aggregateN(bars, n)`: `null` when fewer than `n` bars; otherwise merge
`bars.slice(-n)` — `t`/`o` from the first, `c` from the last, `h`/`l` folded
from a seed of `o` over every bar, `v` summed.  (JS `slice(-0)` is the whole
array; on an empty array with `n = 0` the JS code would throw, modelled as
`none`.) -/
def aggregateN (bars : List Bar) (n : ℕ) : Option Bar :=
  if bars.length < n then none
  else
    match (if n = 0 then bars else bars.drop (bars.length - n)) with
    | [] => none
    | b0 :: rest =>
      some { t := b0.t, o := b0.o,
             h := (b0 :: rest).foldl (fun acc k => max acc k.h) b0.o,
             l := (b0 :: rest).foldl (fun acc k => min acc k.l) b0.o,
             c := ((b0 :: rest).getLast (List.cons_ne_nil b0 rest)).c,
             v := (b0 :: rest).foldl (fun acc k => acc + k.v) 0 }

/-! ### Specification scaffolding for the C5 equivalence -/

/-- The bar the roll algorithm builds from one nonempty group of
same-bucket ticks (bucket start `b`). -/
def groupBarOf (b : ℤ) : List (ℚ × ℤ) → Bar
  | [] => mkBar b 0
  | q :: qs => (qs.map Prod.fst).foldl barStep (mkBar b q.1)

/-- The closed bars produced by consecutive groups with bucket starts
`b, b+step, …`. -/
def groupBarsOf (step : ℤ) : ℤ → List (List (ℚ × ℤ)) → List Bar
  | _, [] => []
  | b, g :: gs => groupBarOf b g :: groupBarsOf step (b + step) gs

/-- `chainBars step b c gs`: closed bars and final open bar after processing
groups `gs` (buckets `b, b+step, …`) from an open bar `c`. -/
def chainBars (step : ℤ) : ℤ → Bar → List (List (ℚ × ℤ)) → List Bar × Bar
  | _, c, [] => ([], c)
  | b, c, g :: gs =>
    let r := chainBars step (b + step) (groupBarOf b g) gs
    (c :: r.1, r.2)

/-- The premise of C5: the tick list decomposes into nonempty per-minute
groups for the consecutive minute buckets starting at `b`. -/
def groupsIn (b : ℤ) : List (List (ℚ × ℤ)) → Prop
  | [] => True
  | g :: gs => g ≠ [] ∧ (∀ q ∈ g, b ≤ q.2 ∧ q.2 < b + 60000) ∧
      groupsIn (b + 60000) gs

/-- `aggregateN`-style merge of two bars. -/
def joinBar (x y : Bar) : Bar :=
  ⟨x.t, x.o, max x.h y.h, min x.l y.l, y.c, x.v + y.v⟩

/-! ### joinBar algebra -/

lemma barStep_joinBar (b x : Bar) (q : ℚ) :
    barStep (joinBar b x) q = joinBar b (barStep x q) := by
  simp [barStep, joinBar, max_assoc, min_assoc, Nat.add_assoc]

lemma foldl_barStep_joinBar (qs : List ℚ) :
    ∀ (b x : Bar), qs.foldl barStep (joinBar b x) = joinBar b (qs.foldl barStep x) := by
  induction qs with
  | nil => intro b x; rfl
  | cons q qs ih =>
    intro b x
    show (qs.foldl barStep (barStep (joinBar b x) q)) = _
    rw [barStep_joinBar, ih]
    rfl

lemma barStep_eq_joinBar_mkBar (x : Bar) (m : ℤ) (p : ℚ) :
    barStep x p = joinBar x (mkBar m p) := rfl

lemma foldl_barStep_cons (x : Bar) (m : ℤ) (p : ℚ) (ps : List ℚ) :
    (p :: ps).foldl barStep x = joinBar x (ps.foldl barStep (mkBar m p)) := by
  show ps.foldl barStep (barStep x p) = _
  rw [barStep_eq_joinBar_mkBar x m p, foldl_barStep_joinBar]

lemma foldl_joinBar_t (rest : List Bar) : ∀ x : Bar, (rest.foldl joinBar x).t = x.t := by
  induction rest with
  | nil => intro x; rfl
  | cons k rest ih => intro x; exact ih (joinBar x k)

lemma foldl_joinBar_o (rest : List Bar) : ∀ x : Bar, (rest.foldl joinBar x).o = x.o := by
  induction rest with
  | nil => intro x; rfl
  | cons k rest ih => intro x; exact ih (joinBar x k)

lemma foldl_joinBar_h (rest : List Bar) :
    ∀ x : Bar, rest.foldl (fun acc k => max acc k.h) x.h = (rest.foldl joinBar x).h := by
  induction rest with
  | nil => intro x; rfl
  | cons k rest ih => intro x; exact ih (joinBar x k)

lemma foldl_joinBar_l (rest : List Bar) :
    ∀ x : Bar, rest.foldl (fun acc k => min acc k.l) x.l = (rest.foldl joinBar x).l := by
  induction rest with
  | nil => intro x; rfl
  | cons k rest ih => intro x; exact ih (joinBar x k)

lemma foldl_joinBar_v (rest : List Bar) :
    ∀ x : Bar, rest.foldl (fun acc k => acc + k.v) x.v = (rest.foldl joinBar x).v := by
  induction rest with
  | nil => intro x; rfl
  | cons k rest ih => intro x; exact ih (joinBar x k)

lemma getLast_c_head_irrel (a b : Bar) (rest : List Bar) (hc : a.c = b.c) :
    ((a :: rest).getLast (List.cons_ne_nil a rest)).c =
      ((b :: rest).getLast (List.cons_ne_nil b rest)).c := by
  cases rest with
  | nil => exact hc
  | cons r rest =>
    rw [List.getLast_cons (List.cons_ne_nil r rest),
      List.getLast_cons (List.cons_ne_nil r rest)]

lemma foldl_joinBar_c (rest : List Bar) :
    ∀ x : Bar, ((x :: rest).getLast (List.cons_ne_nil x rest)).c =
      (rest.foldl joinBar x).c := by
  induction rest with
  | nil => intro x; rfl
  | cons k rest ih =>
    intro x
    rw [List.getLast_cons (List.cons_ne_nil k rest)]
    show _ = (rest.foldl joinBar (joinBar x k)).c
    rw [← ih (joinBar x k)]
    exact getLast_c_head_irrel k (joinBar x k) rest rfl

lemma foldl_barStep_o (ps : List ℚ) : ∀ x : Bar, (ps.foldl barStep x).o = x.o := by
  induction ps with
  | nil => intro x; rfl
  | cons p ps ih => intro x; exact ih (barStep x p)

lemma foldl_barStep_t (ps : List ℚ) : ∀ x : Bar, (ps.foldl barStep x).t = x.t := by
  induction ps with
  | nil => intro x; rfl
  | cons p ps ih => intro x; exact ih (barStep x p)

lemma foldl_barStep_h_ge (ps : List ℚ) : ∀ x : Bar, x.h ≤ (ps.foldl barStep x).h := by
  induction ps with
  | nil => intro x; exact le_rfl
  | cons p ps ih =>
    intro x
    exact le_trans (le_max_left x.h p) (ih (barStep x p))

lemma foldl_barStep_l_le (ps : List ℚ) : ∀ x : Bar, (ps.foldl barStep x).l ≤ x.l := by
  induction ps with
  | nil => intro x; exact le_rfl
  | cons p ps ih =>
    intro x
    exact le_trans (ih (barStep x p)) (min_le_left x.l p)

/-- Bars built by the roll algorithm have `l ≤ o ≤ h`. -/
lemma groupBarOf_o_le_h (b : ℤ) (g : List (ℚ × ℤ)) :
    (groupBarOf b g).o ≤ (groupBarOf b g).h ∧
      (groupBarOf b g).l ≤ (groupBarOf b g).o := by
  cases g with
  | nil => exact ⟨le_rfl, le_rfl⟩
  | cons q qs =>
    simp only [groupBarOf]
    rw [foldl_barStep_o (qs.map Prod.fst) (mkBar b q.1)]
    exact ⟨foldl_barStep_h_ge (qs.map Prod.fst) (mkBar b q.1),
      foldl_barStep_l_le (qs.map Prod.fst) (mkBar b q.1)⟩

lemma aggregateN_cons (b0 : Bar) (rest : List Bar)
    (hoh : b0.o ≤ b0.h) (hlo : b0.l ≤ b0.o) :
    aggregateN (b0 :: rest) (rest.length + 1) = some (rest.foldl joinBar b0) := by
  have ht := foldl_joinBar_t rest b0
  have ho := foldl_joinBar_o rest b0
  have hh : (b0 :: rest).foldl (fun acc k => max acc k.h) b0.o =
      (rest.foldl joinBar b0).h := by
    show rest.foldl (fun acc k => max acc k.h) (max b0.o b0.h) = _
    rw [max_eq_right hoh]
    exact foldl_joinBar_h rest b0
  have hl : (b0 :: rest).foldl (fun acc k => min acc k.l) b0.o =
      (rest.foldl joinBar b0).l := by
    show rest.foldl (fun acc k => min acc k.l) (min b0.o b0.l) = _
    rw [min_eq_right hlo]
    exact foldl_joinBar_l rest b0
  have hv : (b0 :: rest).foldl (fun acc k => acc + k.v) 0 =
      (rest.foldl joinBar b0).v := by
    show rest.foldl (fun acc k => acc + k.v) (0 + b0.v) = _
    rw [Nat.zero_add]
    exact foldl_joinBar_v rest b0
  have hc := foldl_joinBar_c rest b0
  unfold aggregateN
  rw [if_neg (by simp), if_neg (by omega : ¬ rest.length + 1 = 0),
    show (b0 :: rest).length - (rest.length + 1) = 0 from by simp, List.drop_zero]
  show some { t := b0.t, o := b0.o,
              h := (b0 :: rest).foldl (fun acc k => max acc k.h) b0.o,
              l := (b0 :: rest).foldl (fun acc k => min acc k.l) b0.o,
              c := ((b0 :: rest).getLast (List.cons_ne_nil b0 rest)).c,
              v := (b0 :: rest).foldl (fun acc k => acc + k.v) 0 } =
    some (rest.foldl joinBar b0)
  rw [hh, hl, hc, hv]
  generalize hg : rest.foldl joinBar b0 = y
  rw [hg] at ht ho
  cases y
  simp_all

/-! ### Roll-run machinery -/

lemma rollRun_append (bucketMs : ℤ) (cap : ℚ) :
    ∀ (xs ys : List (ℚ × ℤ)) (bk : Book),
      rollRun bucketMs cap bk (xs ++ ys) =
        rollRun bucketMs cap (rollRun bucketMs cap bk xs) ys := by
  intro xs
  induction xs with
  | nil => intro ys bk; rfl
  | cons x xs ih => intro ys bk; exact ih ys (rollTick bucketMs cap bk x.1 x.2)

lemma rollRun_sameBucket (bucketMs : ℤ) (cap : ℚ) :
    ∀ (qs : List (ℚ × ℤ)) (m1 : List Bar) (cur : Bar),
      (∀ q ∈ qs, bucketOf bucketMs q.2 = cur.t) →
      rollRun bucketMs cap ⟨m1, some cur⟩ qs =
        ⟨m1, some ((qs.map Prod.fst).foldl barStep cur)⟩ := by
  intro qs
  induction qs with
  | nil => intro m1 cur _; rfl
  | cons q qs ih =>
    intro m1 cur hb
    have hq := hb q (List.mem_cons_self q qs)
    show rollRun bucketMs cap (rollTick bucketMs cap ⟨m1, some cur⟩ q.1 q.2) qs = _
    unfold rollTick
    simp only
    rw [if_pos hq.symm]
    have hrest : ∀ r ∈ qs, bucketOf bucketMs r.2 = (barStep cur q.1).t := by
      intro r hr
      exact hb r (List.mem_cons_of_mem q hr)
    rw [ih m1 (barStep cur q.1) hrest]
    rfl

lemma rollRun_group_none (bucketMs : ℤ) (cap : ℚ) (m : ℤ) (q : ℚ × ℤ)
    (qs : List (ℚ × ℤ)) (m1 : List Bar)
    (hb : ∀ r ∈ (q :: qs), bucketOf bucketMs r.2 = m) :
    rollRun bucketMs cap ⟨m1, none⟩ (q :: qs) =
      ⟨m1, some (groupBarOf m (q :: qs))⟩ := by
  show rollRun bucketMs cap (rollTick bucketMs cap ⟨m1, none⟩ q.1 q.2) qs = _
  unfold rollTick
  simp only
  rw [hb q (List.mem_cons_self q qs)]
  rw [rollRun_sameBucket bucketMs cap qs m1 (mkBar m q.1)
    (fun r hr => hb r (List.mem_cons_of_mem q hr))]
  rfl

lemma rollRun_group_close (bucketMs : ℤ) (cap : ℚ) (m : ℤ) (q : ℚ × ℤ)
    (qs : List (ℚ × ℤ)) (m1 : List Bar) (c : Bar) (hne : c.t ≠ m)
    (hb : ∀ r ∈ (q :: qs), bucketOf bucketMs r.2 = m) :
    rollRun bucketMs cap ⟨m1, some c⟩ (q :: qs) =
      ⟨pushCap cap m1 c, some (groupBarOf m (q :: qs))⟩ := by
  show rollRun bucketMs cap (rollTick bucketMs cap ⟨m1, some c⟩ q.1 q.2) qs = _
  unfold rollTick
  simp only
  rw [hb q (List.mem_cons_self q qs), if_neg hne]
  rw [rollRun_sameBucket bucketMs cap qs (pushCap cap m1 c) (mkBar m q.1)
    (fun r hr => hb r (List.mem_cons_of_mem q hr))]
  rfl

lemma bucketOf_eq (ms k ts : ℤ) (hms : 0 < ms) (h1 : k * ms ≤ ts)
    (h2 : ts < (k + 1) * ms) : bucketOf ms ts = k * ms := by
  unfold bucketOf
  rw [Int.fdiv_eq_ediv ts hms.le]
  have hk : ts / ms = k := by
    have h4 : ts = (ts - k * ms) + k * ms := by ring
    have h5 : ts - k * ms < ms := by nlinarith
    rw [h4, Int.add_mul_ediv_right _ _ (ne_of_gt hms),
      Int.ediv_eq_zero_of_lt (by linarith) h5, zero_add]
  rw [hk]

lemma bucketOf_ge (ms B ts : ℤ) (hms : 0 < ms) (hB : ms ∣ B) (h : B ≤ ts) :
    B ≤ bucketOf ms ts := by
  obtain ⟨j, rfl⟩ := hB
  unfold bucketOf
  rw [Int.fdiv_eq_ediv ts hms.le]
  have hj : j ≤ ts / ms := by
    rw [Int.le_ediv_iff_mul_le hms]
    linarith [h, mul_comm ms j]
  calc ms * j = j * ms := by ring
    _ ≤ ts / ms * ms := mul_le_mul_of_nonneg_right hj hms.le

lemma groupsIn_join_range :
    ∀ (gs : List (List (ℚ × ℤ))) (b : ℤ), groupsIn b gs →
      ∀ q ∈ gs.flatten, b ≤ q.2 ∧ q.2 < b + 60000 * gs.length := by
  intro gs
  induction gs with
  | nil => intro b _ q hq; simp at hq
  | cons g gs ih =>
    intro b hgi q hq
    obtain ⟨_, hrange, hrest⟩ := hgi
    rw [List.flatten_cons] at hq
    rcases List.mem_append.mp hq with h | h
    · obtain ⟨h1, h2⟩ := hrange q h
      refine ⟨h1, ?_⟩
      have hlen : (0:ℤ) ≤ 60000 * (gs.length : ℤ) := by positivity
      have hring : b + 60000 * (((g :: gs).length : ℕ) : ℤ) =
          b + 60000 + 60000 * (gs.length : ℤ) := by
        simp only [List.length_cons]
        push_cast
        ring
      rw [hring]
      linarith
    · obtain ⟨h1, h2⟩ := ih (b + 60000) hrest q h
      refine ⟨by linarith, ?_⟩
      have hring : b + 60000 * (((g :: gs).length : ℕ) : ℤ) =
          b + 60000 + 60000 * (gs.length : ℤ) := by
        simp only [List.length_cons]
        push_cast
        ring
      rw [hring]
      linarith

lemma groupBarOf_t (b : ℤ) (g : List (ℚ × ℤ)) : (groupBarOf b g).t = b := by
  cases g with
  | nil => rfl
  | cons q qs => exact foldl_barStep_t (qs.map Prod.fst) (mkBar b q.1)

lemma chainBars_fst_length (step : ℤ) :
    ∀ (gs : List (List (ℚ × ℤ))) (b : ℤ) (c : Bar),
      ((chainBars step b c gs).1).length = gs.length := by
  intro gs
  induction gs with
  | nil => intro b c; rfl
  | cons g gs ih =>
    intro b c
    show ((c :: (chainBars step (b + step) (groupBarOf b g) gs).1)).length = _
    rw [List.length_cons, ih]
    rfl

lemma chainBars_decomp (step : ℤ) :
    ∀ (gs : List (List (ℚ × ℤ))) (b : ℤ) (c : Bar),
      (chainBars step b c gs).1 ++ [(chainBars step b c gs).2] =
        c :: groupBarsOf step b gs := by
  intro gs
  induction gs with
  | nil => intro b c; rfl
  | cons g gs ih =>
    intro b c
    show (c :: (chainBars step (b + step) (groupBarOf b g) gs).1) ++
        [(chainBars step (b + step) (groupBarOf b g) gs).2] =
      c :: groupBarsOf step b (g :: gs)
    rw [List.cons_append, ih]
    rfl

lemma chainBars_snd_t_lt (step : ℤ) (hstep : 0 < step) :
    ∀ (gs : List (List (ℚ × ℤ))) (b : ℤ) (c : Bar), c.t < b →
      (chainBars step b c gs).2.t < b + step * gs.length := by
  intro gs
  induction gs with
  | nil =>
    intro b c hc
    simpa using hc
  | cons g gs ih =>
    intro b c hc
    have h1 := ih (b + step) (groupBarOf b g) (by rw [groupBarOf_t]; linarith)
    have hring : b + step * (((g :: gs).length : ℕ) : ℤ) =
        b + step + step * (gs.length : ℤ) := by
      simp only [List.length_cons]
      push_cast
      ring
    show (chainBars step (b + step) (groupBarOf b g) gs).2.t < _
    rw [hring]
    linarith

lemma rollRun_chain (cap : ℚ) :
    ∀ (gs : List (List (ℚ × ℤ))) (b : ℤ) (m1 : List Bar) (c : Bar),
      groupsIn b gs → (60000:ℤ) ∣ b → c.t < b →
      ((m1.length : ℚ) + (gs.length : ℚ) ≤ cap) →
      rollRun 60000 cap ⟨m1, some c⟩ gs.flatten =
        ⟨m1 ++ (chainBars 60000 b c gs).1, some (chainBars 60000 b c gs).2⟩ := by
  intro gs
  induction gs with
  | nil =>
    intro b m1 c _ _ _ _
    show (⟨m1, some c⟩ : Book) = _
    simp [chainBars]
  | cons g gs ih =>
    intro b m1 c hgi hdvd hct hcap
    obtain ⟨hne, hrange, hrest⟩ := hgi
    obtain ⟨q, qs, rfl⟩ : ∃ q qs, g = q :: qs := by
      cases g with
      | nil => exact absurd rfl hne
      | cons q qs => exact ⟨q, qs, rfl⟩
    obtain ⟨j, hj⟩ := hdvd
    have hbuck : ∀ r ∈ (q :: qs), bucketOf 60000 r.2 = b := by
      intro r hr
      obtain ⟨h1, h2⟩ := hrange r hr
      have he1 : j * 60000 = b := by rw [hj]; ring
      have he2 : (j + 1) * 60000 = b + 60000 := by rw [hj]; ring
      have := bucketOf_eq 60000 j r.2 (by norm_num)
        (by rw [he1]; exact h1) (by rw [he2]; exact h2)
      rw [this, he1]
    rw [List.flatten_cons, rollRun_append,
      rollRun_group_close 60000 cap b q qs m1 c (ne_of_lt hct) hbuck]
    have hcap2 : (m1.length : ℚ) + ((gs.length : ℚ) + 1) ≤ cap := by
      simp only [List.length_cons] at hcap
      push_cast at hcap
      linarith
    have hpush : pushCap cap m1 c = m1 ++ [c] := by
      unfold pushCap
      rw [if_neg]
      simp only [List.length_append, List.length_cons, List.length_nil]
      push_cast
      intro hcon
      have hg0 : (0:ℚ) ≤ (gs.length : ℚ) := by positivity
      linarith
    rw [hpush]
    rw [ih (b + 60000) (m1 ++ [c]) (groupBarOf b (q :: qs)) hrest
      (dvd_add ⟨j, hj⟩ dvd_rfl)
      (by rw [groupBarOf_t]; linarith)
      (by
        simp only [List.length_append, List.length_cons, List.length_nil]
        push_cast
        linarith)]
    show (⟨(m1 ++ [c]) ++ _, some _⟩ : Book) = ⟨m1 ++ _, some _⟩
    simp [chainBars, List.append_assoc]

lemma groupsIn_nonempty :
    ∀ (gs : List (List (ℚ × ℤ))) (b : ℤ), groupsIn b gs → ∀ g ∈ gs, g ≠ [] := by
  intro gs
  induction gs with
  | nil => intro b _ g hg; simp at hg
  | cons g0 gs ih =>
    intro b hgi g hg
    obtain ⟨hne, _, hrest⟩ := hgi
    rcases List.mem_cons.mp hg with rfl | hg
    · exact hne
    · exact ih (b + 60000) hrest g hg

lemma groupBarsOf_length (step : ℤ) :
    ∀ (gs : List (List (ℚ × ℤ))) (b : ℤ), (groupBarsOf step b gs).length = gs.length := by
  intro gs
  induction gs with
  | nil => intro b; rfl
  | cons g gs ih =>
    intro b
    show (groupBarOf b g :: groupBarsOf step (b + step) gs).length = _
    rw [List.length_cons, ih]
    rfl

/-- Folding the roll update over a flattened group list equals folding
`joinBar` over the per-group bars. -/
lemma foldl_barStep_flatten (step : ℤ) :
    ∀ (gs : List (List (ℚ × ℤ))) (b : ℤ) (x : Bar), (∀ g ∈ gs, g ≠ []) →
      (gs.flatten.map Prod.fst).foldl barStep x =
        (groupBarsOf step b gs).foldl joinBar x := by
  intro gs
  induction gs with
  | nil => intro b x _; rfl
  | cons g gs ih =>
    intro b x hne
    obtain ⟨q, qs, rfl⟩ : ∃ q qs, g = q :: qs := by
      cases g with
      | nil => exact absurd rfl (hne [] (List.mem_cons_self _ _))
      | cons q qs => exact ⟨q, qs, rfl⟩
    rw [List.flatten_cons, List.map_append, List.foldl_append]
    have hg : ((q :: qs).map Prod.fst).foldl barStep x =
        joinBar x (groupBarOf b (q :: qs)) := by
      rw [List.map_cons]
      exact foldl_barStep_cons x b q.1 (qs.map Prod.fst)
    rw [hg, ih (b + step) (joinBar x (groupBarOf b (q :: qs)))
      (fun g hg => hne g (List.mem_cons_of_mem _ hg))]
    rfl

/-- The direct roll bar of the whole tick list equals the `joinBar`-fold of
the per-minute bars. -/
lemma groupBarOf_flatten (b : ℤ) (q : ℚ × ℤ) (qs : List (ℚ × ℤ))
    (gs : List (List (ℚ × ℤ))) (hne : ∀ g ∈ gs, g ≠ []) :
    groupBarOf b (((q :: qs) :: gs).flatten) =
      (groupBarsOf 60000 (b + 60000) gs).foldl joinBar (groupBarOf b (q :: qs)) := by
  rw [List.flatten_cons, List.cons_append]
  show ((qs ++ gs.flatten).map Prod.fst).foldl barStep (mkBar b q.1) = _
  rw [List.map_append, List.foldl_append]
  exact foldl_barStep_flatten 60000 gs (b + 60000)
    ((qs.map Prod.fst).foldl barStep (mkBar b q.1)) hne

/-- `aggregateN` on the N per-minute bars equals the direct N-minute bar. -/
lemma aggregate_groupBars_eq (b : ℤ) (q : ℚ × ℤ) (qs : List (ℚ × ℤ))
    (gs : List (List (ℚ × ℤ))) (hne : ∀ g ∈ gs, g ≠ []) :
    aggregateN (groupBarsOf 60000 b ((q :: qs) :: gs)) (gs.length + 1) =
      some (groupBarOf b (((q :: qs) :: gs).flatten)) := by
  have hlen : (groupBarsOf 60000 (b + 60000) gs).length = gs.length :=
    groupBarsOf_length 60000 gs (b + 60000)
  have hbars : groupBarsOf 60000 b ((q :: qs) :: gs) =
      groupBarOf b (q :: qs) :: groupBarsOf 60000 (b + 60000) gs := rfl
  rw [hbars, ← hlen]
  obtain ⟨hoh, hlo⟩ := groupBarOf_o_le_h b (q :: qs)
  rw [aggregateN_cons (groupBarOf b (q :: qs)) (groupBarsOf 60000 (b + 60000) gs) hoh hlo]
  rw [groupBarOf_flatten b q qs gs hne]

/-- C5: for ticks falling (grouped, nonempty) into the `N` consecutive
minute buckets `b, b+60000, …` with `b` aligned to an `N`-minute boundary,
and a closing tick at or after `b + N*60000` (needed to close the last open
bar), aggregating the `N` closed 1-minute bars with `aggregateN` yields
exactly the single `N`-minute bar the roll-bar algorithm builds directly
from the raw ticks (same `t`, OHLC and tick-count).  `N ≤ cap` keeps the
bar history from shifting bars out. -/
theorem aggregateN_eq_direct_roll (cap : ℚ) (k b : ℤ) (q : ℚ × ℤ)
    (qs : List (ℚ × ℤ)) (gs : List (List (ℚ × ℤ))) (N : ℕ)
    (hN : N = gs.length + 1) (hb : b = (N : ℤ) * 60000 * k)
    (hgroups : groupsIn b ((q :: qs) :: gs)) (hcap : (N : ℚ) ≤ cap)
    (pc : ℚ) (tc : ℤ) (htc : b + (N : ℤ) * 60000 ≤ tc) :
    aggregateN ((rollRun 60000 cap Book.empty
        (((q :: qs) :: gs).flatten ++ [(pc, tc)])).m1) N =
      ((rollRun ((N : ℤ) * 60000) cap Book.empty
        (((q :: qs) :: gs).flatten ++ [(pc, tc)])).m1).head? := by
  obtain ⟨hgne, hrange, hrest⟩ := hgroups
  have hNQ : (N : ℚ) = (gs.length : ℚ) + 1 := by rw [hN]; push_cast; ring
  have hNZ : (N : ℤ) = (gs.length : ℤ) + 1 := by rw [hN]; push_cast; ring
  have hNpos : (0 : ℤ) < (N : ℤ) * 60000 := by
    have : (1 : ℤ) ≤ (N : ℤ) := by rw [hNZ]; omega
    nlinarith
  have hdvd60 : (60000 : ℤ) ∣ b := ⟨(N : ℤ) * k, by rw [hb]; ring⟩
  have hbuckg : ∀ r ∈ (q :: qs), bucketOf 60000 r.2 = b := by
    intro r hr
    obtain ⟨h1, h2⟩ := hrange r hr
    obtain ⟨j, hj⟩ := hdvd60
    have he1 : j * 60000 = b := by rw [hj]; ring
    have he2 : (j + 1) * 60000 = b + 60000 := by rw [hj]; ring
    have := bucketOf_eq 60000 j r.2 (by norm_num) (by rw [he1]; exact h1)
      (by rw [he2]; exact h2)
    rw [this, he1]
  -- the 1-minute side
  have hchain := rollRun_chain cap gs (b + 60000) [] (groupBarOf b (q :: qs)) hrest
    (dvd_add hdvd60 dvd_rfl) (by rw [groupBarOf_t]; linarith)
    (by simp only [List.length_nil, Nat.cast_zero, zero_add]; linarith [hcap, hNQ])
  have hlast_t : (chainBars 60000 (b + 60000) (groupBarOf b (q :: qs)) gs).2.t <
      b + (N : ℤ) * 60000 := by
    have := chainBars_snd_t_lt 60000 (by norm_num) gs (b + 60000)
      (groupBarOf b (q :: qs)) (by rw [groupBarOf_t]; linarith)
    rw [hNZ]
    nlinarith
  have hbucktc : b + (N : ℤ) * 60000 ≤ bucketOf 60000 tc :=
    bucketOf_ge 60000 (b + (N : ℤ) * 60000) tc (by norm_num)
      (dvd_add hdvd60 ⟨(N : ℤ), by ring⟩) htc
  have h1m : (rollRun 60000 cap Book.empty
      (((q :: qs) :: gs).flatten ++ [(pc, tc)])).m1 =
      groupBarsOf 60000 b ((q :: qs) :: gs) := by
    rw [rollRun_append, List.flatten_cons, rollRun_append]
    have hstep1 : rollRun 60000 cap Book.empty (q :: qs) =
        ⟨[], some (groupBarOf b (q :: qs))⟩ :=
      rollRun_group_none 60000 cap b q qs [] hbuckg
    rw [hstep1, hchain]
    show (rollTick 60000 cap _ pc tc).m1 = _
    unfold rollTick
    simp only
    rw [if_neg (by intro hcon; rw [hcon] at hlast_t; linarith [hlast_t, hbucktc])]
    show pushCap cap ([] ++ (chainBars 60000 (b + 60000) (groupBarOf b (q :: qs)) gs).1)
        (chainBars 60000 (b + 60000) (groupBarOf b (q :: qs)) gs).2 = _
    rw [List.nil_append]
    unfold pushCap
    rw [if_neg (by
      simp only [List.length_append, List.length_cons, List.length_nil,
        chainBars_fst_length]
      push_cast
      intro hcon
      rw [hNQ] at hcap
      linarith)]
    rw [chainBars_decomp]
    rfl
  -- the N-minute side
  have hbuckN : ∀ r ∈ (q :: (qs ++ gs.flatten)),
      bucketOf ((N : ℤ) * 60000) r.2 = b := by
    intro r hr
    have hrmem : r ∈ ((q :: qs) :: gs).flatten := by
      rw [List.flatten_cons, List.cons_append]
      exact hr
    obtain ⟨h1, h2⟩ := groupsIn_join_range ((q :: qs) :: gs) b
      ⟨hgne, hrange, hrest⟩ r hrmem
    have he1 : k * ((N : ℤ) * 60000) = b := by rw [hb]; ring
    have he2 : (k + 1) * ((N : ℤ) * 60000) = b + (N : ℤ) * 60000 := by rw [hb]; ring
    have hlen : b + 60000 * (((q :: qs) :: gs).length : ℤ) = b + (N : ℤ) * 60000 := by
      simp only [List.length_cons]
      rw [hNZ]
      push_cast
      ring
    rw [hlen] at h2
    have := bucketOf_eq ((N : ℤ) * 60000) k r.2 hNpos (by rw [he1]; exact h1)
      (by rw [he2]; exact h2)
    rw [this, he1]
  have hNm : (rollRun ((N : ℤ) * 60000) cap Book.empty
      (((q :: qs) :: gs).flatten ++ [(pc, tc)])).m1 =
      [groupBarOf b (((q :: qs) :: gs).flatten)] := by
    rw [rollRun_append]
    have hmain : ((q :: qs) :: gs).flatten = q :: (qs ++ gs.flatten) := by
      rw [List.flatten_cons, List.cons_append]
    rw [hmain]
    have hstepN : rollRun ((N : ℤ) * 60000) cap Book.empty (q :: (qs ++ gs.flatten)) =
        ⟨[], some (groupBarOf b (q :: (qs ++ gs.flatten)))⟩ :=
      rollRun_group_none ((N : ℤ) * 60000) cap b q (qs ++ gs.flatten) [] hbuckN
    rw [hstepN]
    show (rollTick ((N : ℤ) * 60000) cap _ pc tc).m1 = _
    unfold rollTick
    simp only
    rw [if_neg (by
      rw [groupBarOf_t]
      intro hcon
      have := bucketOf_ge ((N : ℤ) * 60000) (b + (N : ℤ) * 60000) tc hNpos
        (dvd_add ⟨k, by rw [hb]⟩ dvd_rfl) htc
      rw [← hcon] at this
      linarith)]
    show pushCap cap [] (groupBarOf b (q :: (qs ++ gs.flatten))) = _
    unfold pushCap
    rw [if_neg (by
      simp only [List.length_cons, List.length_nil, List.nil_append]
      push_cast
      intro hcon
      rw [hNQ] at hcap
      have : (0:ℚ) ≤ (gs.length : ℚ) := by positivity
      linarith)]
    rw [← hmain]
    rfl
  rw [h1m, hNm, hN]
  rw [aggregate_groupBars_eq b q qs gs (groupsIn_nonempty gs (b + 60000) hrest)]
  rfl

/-- Witness for C5: two minute-buckets starting at 0 with ticks
(1,0ms),(3,30000ms) in the first minute and (2,60000ms) in the second,
closed by a tick at 120000ms; aggregating the two 1-minute bars equals the
direct 2-minute bar. -/
theorem aggregateN_eq_direct_roll_witness :
    aggregateN ((rollRun 60000 90 Book.empty
        ((((1, 0) :: [(3, 30000)]) :: [[(2, 60000)]]).flatten ++
          [((5 : ℚ), (120000 : ℤ))])).m1) 2 =
      ((rollRun (((2 : ℕ) : ℤ) * 60000) 90 Book.empty
        ((((1, 0) :: [(3, 30000)]) :: [[(2, 60000)]]).flatten ++
          [((5 : ℚ), (120000 : ℤ))])).m1).head? :=
  aggregateN_eq_direct_roll 90 0 0 (1, 0) [(3, 30000)] [[(2, 60000)]] 2
    (by decide) (by decide)
    (by
      refine ⟨by decide, ?_, by decide, ?_, trivial⟩
      · intro r hr
        simp only [List.mem_cons, List.not_mem_nil, or_false] at hr
        rcases hr with h | h <;> subst h <;> norm_num
      · intro r hr
        simp only [List.mem_cons, List.not_mem_nil, or_false] at hr
        subst hr
        norm_num)
    (by norm_num) 5 120000 (by decide)

/-! ## MA Confluence Engine decision (src/src/index.js lines 411–464)

The decision core of the confluence engine.  Upstream code computes, per
symbol, the three averaged MA slopes `sl1m, sl3m, sl15` (each a sum of three
`slopePct` values), the nine moving averages used by the optional ordering
check, the volume z-score `volZ` and the distance `dist` to the 15m MA30.
The decision then proceeds exactly as in the source: per-timeframe dead-zone
tests pick a side (`UP` needs all three `sl/3` strictly above the dead-zone,
`DOWN` all three strictly below its negation), then the ordering / volume /
distance gates and the per-symbol confluence cooldown (`unb`, the stored
`cdConfluence` value) gate the emission. -/

structure ConfluenceConfig where
  deadzone1m : ℚ
  deadzone3m : ℚ
  deadzone15m : ℚ
  ordering : Bool
  volZmin : ℚ
  distMaxPct : ℚ

structure ConfluenceInputs where
  sl1m : ℚ
  sl3m : ℚ
  sl15 : ℚ
  m1_5 : ℚ
  m1_10 : ℚ
  m1_30 : ℚ
  m3_5 : ℚ
  m3_10 : ℚ
  m3_30 : ℚ
  m15_5 : ℚ
  m15_10 : ℚ
  m15_30 : ℚ
  volZ : ℚ
  dist : ℚ

/-- `let side=null; if (up1m&&up3m&&up15) side='UP';
else if (down1m&&down3m&&down15) side='DOWN';` with
`upX = (slX/3) > DEADZONE_X` and `downX = (slX/3) < -DEADZONE_X`. -/
def confluenceSide (cfg : ConfluenceConfig) (i : ConfluenceInputs) :
    Option Direction :=
  if cfg.deadzone1m < i.sl1m / 3 ∧ cfg.deadzone3m < i.sl3m / 3 ∧
      cfg.deadzone15m < i.sl15 / 3 then
    some .UP
  else if i.sl1m / 3 < -cfg.deadzone1m ∧ i.sl3m / 3 < -cfg.deadzone3m ∧
      i.sl15 / 3 < -cfg.deadzone15m then
    some .DOWN
  else none

/-- `ordUp = (m1_5>m1_10 && m1_10>m1_30) && (3m…) && (15m…)`. -/
def ordUp (i : ConfluenceInputs) : Prop :=
  (i.m1_10 < i.m1_5 ∧ i.m1_30 < i.m1_10) ∧
  (i.m3_10 < i.m3_5 ∧ i.m3_30 < i.m3_10) ∧
  (i.m15_10 < i.m15_5 ∧ i.m15_30 < i.m15_10)

/-- `ordDown = (m1_5<m1_10 && m1_10<m1_30) && (3m…) && (15m…)`. -/
def ordDown (i : ConfluenceInputs) : Prop :=
  (i.m1_5 < i.m1_10 ∧ i.m1_10 < i.m1_30) ∧
  (i.m3_5 < i.m3_10 ∧ i.m3_10 < i.m3_30) ∧
  (i.m15_5 < i.m15_10 ∧ i.m15_10 < i.m15_30)

instance (i : ConfluenceInputs) : Decidable (ordUp i) := by
  unfold ordUp; infer_instance

instance (i : ConfluenceInputs) : Decidable (ordDown i) := by
  unfold ordDown; infer_instance

/-- The emitted confluence signal (the side carried by the
`sendTelegram`/`postJson` emission), `none` when nothing is emitted:
`if (side && orderingOK && volOK && distOK) { … if (ts >= unb) { emit } }`
with `orderingOK = CONFLUENCE_ORDERING ? (side==='UP'?ordUp:ordDown) : true`,
`volOK = volZ >= CONFLUENCE_VOL_ZMIN`, `distOK = dist <= MAX`, and `unb` the
symbol's stored confluence-cooldown bound (`cdConfluence.get(sym) || 0`). -/
def confluenceEmit (cfg : ConfluenceConfig) (i : ConfluenceInputs)
    (unb ts : ℚ) : Option Direction :=
  match confluenceSide cfg i with
  | none => none
  | some s =>
      let orderingOK : Bool :=
        if cfg.ordering then
          match s with
          | .UP => decide (ordUp i)
          | .DOWN => decide (ordDown i)
        else true
      if orderingOK ∧ cfg.volZmin ≤ i.volZ ∧ i.dist ≤ cfg.distMaxPct then
        if unb ≤ ts then some s else none
      else none

lemma confluenceEmit_side (cfg : ConfluenceConfig) (i : ConfluenceInputs)
    (unb ts : ℚ) (d : Direction)
    (h : confluenceEmit cfg i unb ts = some d) :
    confluenceSide cfg i = some d := by
  unfold confluenceEmit at h
  cases hs : confluenceSide cfg i with
  | none => rw [hs] at h; exact Option.noConfusion h
  | some s =>
      rw [hs] at h
      simp only [] at h
      repeat' split at h
      all_goals first
        | exact h
        | exact Option.noConfusion h

lemma confluenceSide_up (cfg : ConfluenceConfig) (i : ConfluenceInputs)
    (h : confluenceSide cfg i = some .UP) :
    cfg.deadzone1m < i.sl1m / 3 ∧ cfg.deadzone3m < i.sl3m / 3 ∧
      cfg.deadzone15m < i.sl15 / 3 := by
  unfold confluenceSide at h
  by_cases h1 : cfg.deadzone1m < i.sl1m / 3 ∧ cfg.deadzone3m < i.sl3m / 3 ∧
      cfg.deadzone15m < i.sl15 / 3
  · exact h1
  · rw [if_neg h1] at h
    by_cases h2 : i.sl1m / 3 < -cfg.deadzone1m ∧ i.sl3m / 3 < -cfg.deadzone3m ∧
        i.sl15 / 3 < -cfg.deadzone15m
    · rw [if_pos h2] at h
      exact absurd (Option.some.inj h) (by simp)
    · rw [if_neg h2] at h
      exact Option.noConfusion h

lemma confluenceSide_down (cfg : ConfluenceConfig) (i : ConfluenceInputs)
    (h : confluenceSide cfg i = some .DOWN) :
    i.sl1m / 3 < -cfg.deadzone1m ∧ i.sl3m / 3 < -cfg.deadzone3m ∧
      i.sl15 / 3 < -cfg.deadzone15m := by
  unfold confluenceSide at h
  by_cases h1 : cfg.deadzone1m < i.sl1m / 3 ∧ cfg.deadzone3m < i.sl3m / 3 ∧
      cfg.deadzone15m < i.sl15 / 3
  · rw [if_pos h1] at h
    exact absurd (Option.some.inj h) (by simp)
  · rw [if_neg h1] at h
    by_cases h2 : i.sl1m / 3 < -cfg.deadzone1m ∧ i.sl3m / 3 < -cfg.deadzone3m ∧
        i.sl15 / 3 < -cfg.deadzone15m
    · rw [if_pos h2] at h
      exact h2
    · rw [if_neg h2] at h
      exact Option.noConfusion h

/-- C3: confluence requires unanimity of the three timeframes.  If any one
of the 1m/3m/15m timeframes fails its dead-zone alignment test for a
direction (its averaged slope `sl/3` does not strictly exceed that
timeframe's dead-zone for UP, resp. is not strictly below its negation for
DOWN), then no confluence signal is emitted for that direction on that
evaluation — whatever the other two timeframes, the ordering flag, the
volume/distance gates and the cooldown state are. -/
theorem confluence_unanimity (cfg : ConfluenceConfig) (i : ConfluenceInputs)
    (unb ts : ℚ) :
    ((i.sl1m / 3 ≤ cfg.deadzone1m ∨ i.sl3m / 3 ≤ cfg.deadzone3m ∨
        i.sl15 / 3 ≤ cfg.deadzone15m) →
      confluenceEmit cfg i unb ts ≠ some .UP) ∧
    ((-cfg.deadzone1m ≤ i.sl1m / 3 ∨ -cfg.deadzone3m ≤ i.sl3m / 3 ∨
        -cfg.deadzone15m ≤ i.sl15 / 3) →
      confluenceEmit cfg i unb ts ≠ some .DOWN) := by
  constructor
  · intro h hemit
    have hup := confluenceSide_up cfg i (confluenceEmit_side cfg i unb ts .UP hemit)
    rcases h with h | h | h
    · exact absurd hup.1 (not_lt.mpr h)
    · exact absurd hup.2.1 (not_lt.mpr h)
    · exact absurd hup.2.2 (not_lt.mpr h)
  · intro h hemit
    have hdn := confluenceSide_down cfg i (confluenceEmit_side cfg i unb ts .DOWN hemit)
    rcases h with h | h | h
    · exact absurd hdn.1 (not_lt.mpr h)
    · exact absurd hdn.2.1 (not_lt.mpr h)
    · exact absurd hdn.2.2 (not_lt.mpr h)

/-- Witness for C3: with all nine MAs equal, slopes `0`, dead-zones `1`,
every gate open (ordering off, `volZ = 5 ≥ 0`, `dist = 0 ≤ 1`, cooldown
expired), the 1m timeframe fails both direction tests and nothing is
emitted in either direction. -/
theorem confluence_unanimity_witness :
    confluenceEmit ⟨1, 1, 1, false, 0, 1⟩
        ⟨0, 9, 9, 0, 0, 0, 0, 0, 0, 0, 0, 0, 5, 0⟩ 0 10 ≠ some .UP ∧
    confluenceEmit ⟨1, 1, 1, false, 0, 1⟩
        ⟨0, 9, 9, 0, 0, 0, 0, 0, 0, 0, 0, 0, 5, 0⟩ 0 10 ≠ some .DOWN :=
  ⟨(confluence_unanimity ⟨1, 1, 1, false, 0, 1⟩
      ⟨0, 9, 9, 0, 0, 0, 0, 0, 0, 0, 0, 0, 5, 0⟩ 0 10).1
      (Or.inl (by norm_num)),
   (confluence_unanimity ⟨1, 1, 1, false, 0, 1⟩
      ⟨0, 9, 9, 0, 0, 0, 0, 0, 0, 0, 0, 0, 5, 0⟩ 0 10).2
      (Or.inl (by norm_num))⟩

/-! ## Universe building (src/index.js lines 45–111; src/unnamed/part_001
lines 96–146 is the same logic with extra logging)

`buildUniverse` queries the primary contract-detail catalog, then — only if
the primary kept fewer than 10 symbols — the ticker snapshot, then — only if
primary+secondary together are still below 10 — the symbol list.  We model
the two fallback sources by their would-be responses `tickerSyms` /
`symbolsSyms` and return, alongside the merged universe, two booleans
recording whether each fallback source was actually queried. -/

structure CatalogRow where
  symbol : Option Symbol
  state : ℤ
  apiAllowed : Option Bool
  takerFeeRate : Option ℚ
  makerFeeRate : Option ℚ

structure UniverseConfig where
  zeroFeeOnly : Bool
  maxTakerFee : ℚ
  whitelist : List Symbol
  override : List Symbol
  fallbackToAll : Bool

/-- `isZeroFeeRow`: both fee rates must parse to finite numbers (`none`
models `NaN`/absent) and their max must be ≤ `MAX_TAKER_FEE + 1e-12`. -/
def isZeroFeeRow (maxTakerFee : ℚ) (r : CatalogRow) : Bool :=
  match r.takerFeeRate, r.makerFeeRate with
  | some t, some m => decide (max t m ≤ maxTakerFee + 1 / 1000000000000)
  | _, _ => false

/-- One row of the `universeFromDetail` keep-loop: skip when the symbol is
missing/empty (JS falsy), `state !== 0`, `apiAllowed === false`, or (when
`ZERO_FEE_ONLY`) the row is not zero-fee. -/
def keepDetailRow (cfg : UniverseConfig) (r : CatalogRow) : Option Symbol :=
  match r.symbol with
  | none => none
  | some s =>
      if s = "" then none
      else if r.state ≠ 0 then none
      else if r.apiAllowed = some false then none
      else if cfg.zeroFeeOnly ∧ isZeroFeeRow cfg.maxTakerFee r = false then none
      else some s

def universeFromDetail (cfg : UniverseConfig) (rows : List CatalogRow) :
    List Symbol :=
  rows.filterMap (keepDetailRow cfg)

/-- `Array.from(new Set(a))`: first-occurrence order-preserving dedup. -/
def jsUniqueAux (seen : List Symbol) : List Symbol → List Symbol
  | [] => []
  | s :: rest =>
      if s ∈ seen then jsUniqueAux seen rest
      else s :: jsUniqueAux (s :: seen) rest

def jsUnique (l : List Symbol) : List Symbol := jsUniqueAux [] l

/-- `buildUniverse`, returning `(merged, q2, q3)` where `q2`/`q3` record
whether the secondary (ticker) / tertiary (symbols) sources were queried;
a source that is not queried contributes `[]` (its `uN` stays the initial
empty array). -/
def buildUniverse (cfg : UniverseConfig) (detailRows : List CatalogRow)
    (tickerSyms symbolsSyms : List Symbol) : List Symbol × Bool × Bool :=
  let u1 := universeFromDetail cfg detailRows
  let q2 := decide (u1.length < 10)
  let u2 := if q2 then tickerSyms else []
  let q3 := decide (u1.length + u2.length < 10)
  let u3 := if q3 then symbolsSyms else []
  let merged0 := jsUnique (u1 ++ u2 ++ u3)
  let merged1 := if cfg.zeroFeeOnly then merged0.filter (fun s => s ∈ u1)
                 else merged0
  let merged2 := if cfg.whitelist ≠ [] then jsUnique (merged1 ++ cfg.whitelist)
                 else merged1
  let merged3 := if cfg.override ≠ [] then jsUnique (merged2 ++ cfg.override)
                 else merged2
  let merged4 := if merged3 = [] ∧ cfg.fallbackToAll ∧ cfg.whitelist ≠ [] then
                   jsUnique cfg.whitelist
                 else merged3
  (merged4, q2, q3)

/-- C6: if the primary contract-detail source keeps at least 10 symbols
after filtering, the secondary (ticker snapshot) and tertiary (symbol list)
sources are never queried, and the returned universe is identical for any
two possible responses of those sources. -/
theorem universe_fallback_noninterference (cfg : UniverseConfig)
    (rows : List CatalogRow) (t t' s s' : List Symbol)
    (h : 10 ≤ (universeFromDetail cfg rows).length) :
    (buildUniverse cfg rows t s).2.1 = false ∧
    (buildUniverse cfg rows t s).2.2 = false ∧
    buildUniverse cfg rows t s = buildUniverse cfg rows t' s' := by
  have h2 : ¬ ((universeFromDetail cfg rows).length < 10) := not_lt.mpr h
  simp only [buildUniverse, decide_eq_false h2, Bool.false_eq_true, if_false,
    List.length_nil, Nat.add_zero, List.append_nil]
  exact ⟨trivial, trivial, trivial⟩

/-- Witness for C6: ten clean catalog rows; the ticker/symbol responses
(`["EXTRA"]`/`["MORE"]` vs `[]`/`[]`) are never queried and do not affect
the result. -/
theorem universe_fallback_noninterference_witness :
    10 ≤ (universeFromDetail ⟨false, 0, [], [], false⟩
        (["A", "B", "C", "D", "E", "F", "G", "H", "I", "J"].map
          (fun s => ⟨some s, 0, some true, some 0, some 0⟩))).length ∧
    (buildUniverse ⟨false, 0, [], [], false⟩
        (["A", "B", "C", "D", "E", "F", "G", "H", "I", "J"].map
          (fun s => ⟨some s, 0, some true, some 0, some 0⟩))
        ["EXTRA"] ["MORE"]).2.1 = false ∧
    (buildUniverse ⟨false, 0, [], [], false⟩
        (["A", "B", "C", "D", "E", "F", "G", "H", "I", "J"].map
          (fun s => ⟨some s, 0, some true, some 0, some 0⟩))
        ["EXTRA"] ["MORE"]).2.2 = false ∧
    buildUniverse ⟨false, 0, [], [], false⟩
        (["A", "B", "C", "D", "E", "F", "G", "H", "I", "J"].map
          (fun s => ⟨some s, 0, some true, some 0, some 0⟩))
        ["EXTRA"] ["MORE"] =
      buildUniverse ⟨false, 0, [], [], false⟩
        (["A", "B", "C", "D", "E", "F", "G", "H", "I", "J"].map
          (fun s => ⟨some s, 0, some true, some 0, some 0⟩))
        [] [] :=
  ⟨by decide,
   universe_fallback_noninterference ⟨false, 0, [], [], false⟩
     (["A", "B", "C", "D", "E", "F", "G", "H", "I", "J"].map
       (fun s => ⟨some s, 0, some true, some 0, some 0⟩))
     ["EXTRA"] [] ["MORE"] [] (by decide)⟩

/-! ## Feed dispatchers (src/index.js lines 214–257; src/src/index.js
lines 330–464)

Per ticker row `x` of a `push.tickers` message, both workers first run a
guard (`src/index.js` 219–222: `!sym || !set.has(sym)` then
`num(x.lastPrice,0) <= 0`; `src/src/index.js` 337–339: `!use.has(sym)` then
`!(price>0)`) and `continue` — dropping the row before touching any state —
when it fails.  `TickerRow.lastPrice = none` models a missing or
non-numeric `lastPrice` (both `num(x,0)` and `Number(x.lastPrice || 0)`
turn those into a non-positive value, `0` or `NaN`, that the guard drops).

The in-file worker `SpikeEngine` shared by both entry points
(src/index.js lines 136–148 and src/src/index.js lines 92–111, identical
logic) differs from src/src/spikeEngine.js only in lacking the dead `dt`
computation and in reporting `z = 999` instead of `Infinity` when the EWMA
is not positive. -/

inductive WorkerSpikeOut where
  | noSpike
  | spike (dir : Direction) (ap : ℚ) (z : ℚ)
  deriving DecidableEq, Repr

/-- Worker `SpikeEngine.update(sym, price, ts)` (cfg fields map
`win/minPct/z/cool` onto `SpikeConfig`). -/
def updateSpikeWorker (cfg : SpikeConfig) (st : SpikeState) (sym : Symbol)
    (price ts : ℚ) : SpikeState × Option WorkerSpikeOut :=
  let prev := st.last sym
  let stL : SpikeState := { st with last := setMap st.last sym (price, ts) }
  match prev with
  | none => (stL, none)
  | some (pp, _) =>
    if pp ≤ 0 then (stL, none)
    else
      let pc := (price - pp) / pp
      let ap := |pc|
      let ew := spikeEwmaNext cfg st sym ap
      let stE : SpikeState := { stL with ewmaAbs := setMap st.ewmaAbs sym ew }
      let th := max cfg.minAbsPct (cfg.zMult * ew)
      if ap < th then (stE, some .noSpike)
      else if ts < (st.coolUntil sym).getD 0 then (stE, some .noSpike)
      else
        ({ stE with
            coolUntil := setMap st.coolUntil sym (ts + cfg.cooldownSec * 1000) },
          some (.spike (if 0 ≤ pc then .UP else .DOWN) ap
            (if 0 < ew then ap / ew else 999)))

/-- One row of a `push.tickers` payload. -/
structure TickerRow where
  symbol : Option Symbol
  lastPrice : Option ℚ
  deriving DecidableEq

/-- The v1 alert payload (formatting like `toFixed` is display-only; the
raw rational values are carried). -/
structure V1Alert where
  symbol : Symbol
  price : ℚ
  dir : Direction
  ap : ℚ
  z : ℚ
  ts : ℚ
  mv1 : Option ℚ
  mv5 : Option ℚ
  mv15 : Option ℚ
  deriving DecidableEq

/-- The v1 worker's per-symbol state touched by the message handler:
`priceHist`, the spike engine maps, and the `recent` ring buffer. -/
structure V1State where
  hist : Symbol → Option (List (ℚ × ℚ))
  spike : SpikeState
  recent : List V1Alert

def MAX_AGE_MS : ℚ := 15 * 60 * 1000 + 5000

/-- `pushPrice(sym, ts, price)` on the symbol's array: append `{t,p}` and
shift entries older than `ts - MAX_AGE_MS` off the front. -/
def pushPriceArr (ts price : ℚ) (arr : List (ℚ × ℚ)) : List (ℚ × ℚ) :=
  (arr ++ [(ts, price)]).dropWhile (fun e => decide (e.1 < ts - MAX_AGE_MS))

/-- `pctFrom(arr, ts, ms)`: percent move from the first entry aged ≤ `ms`
to the last entry, `null` when there is no such base or its price is ≤ 0. -/
def pctFrom (arr : List (ℚ × ℚ)) (ts ms : ℚ) : Option ℚ :=
  match arr with
  | [] => none
  | _ :: _ =>
      match arr.find? (fun e => decide (ts - ms ≤ e.1)) with
      | none => none
      | some base =>
          match arr.getLast? with
          | none => none
          | some lastE =>
              if base.2 ≤ 0 then none
              else some ((lastE.2 - base.2) / base.2 * 100)

def MAX_RECENT : ℕ := 800

/-- `pushAlert`: `recent.unshift(a); if (recent.length > MAX_RECENT)
recent.pop();` -/
def pushAlert (recent : List V1Alert) (a : V1Alert) : List V1Alert :=
  let r := a :: recent
  if MAX_RECENT < r.length then r.dropLast else r

/-- One iteration of the v1 `for (const x of msg.data)` body
(src/index.js lines 219–257): guard, price history + multi-window moves,
spike engine, and on a spike the alert payload pushed to `recent` and the
emission sinks (returned as the second component). -/
def processRowV1 (cfg : SpikeConfig) (use : List Symbol) (st : V1State)
    (x : TickerRow) (ts : ℚ) : V1State × List V1Alert :=
  match x.symbol with
  | none => (st, [])
  | some sym =>
      if sym = "" ∨ sym ∉ use then (st, [])
      else
        let price := (x.lastPrice).getD 0
        if price ≤ 0 then (st, [])
        else
          let arr := pushPriceArr ts price ((st.hist sym).getD [])
          let st1 : V1State := { st with hist := setMap st.hist sym arr }
          let mv1 := pctFrom arr ts (60 * 1000)
          let mv5 := pctFrom arr ts (5 * 60 * 1000)
          let mv15 := pctFrom arr ts (15 * 60 * 1000)
          let su := updateSpikeWorker cfg st1.spike sym price ts
          let st2 : V1State := { st1 with spike := su.1 }
          match su.2 with
          | some (.spike dir ap z) =>
              let a : V1Alert := ⟨sym, price, dir, ap, z, ts, mv1, mv5, mv15⟩
              ({ st2 with recent := pushAlert st2.recent a }, [a])
          | _ => (st2, [])

/-! ### v2 worker state and per-row processing -/

/-- `initMA()` unit: `{ ema:null, smaWin:[], hist:[] }`. -/
structure MAUnit where
  ema : Option ℚ
  smaWin : List ℚ
  hist : List ℚ
  deriving DecidableEq

structure MATf where
  len5 : MAUnit
  len10 : MAUnit
  len30 : MAUnit
  deriving DecidableEq

/-- `st.vol = {arr, mean, std}` (the `std` a JS float, hence rational). -/
structure VolState where
  arr : List ℚ
  mean : ℚ
  std : ℚ
  deriving DecidableEq

/-- Per-symbol `maState` entry: `{ '1m':initMA(), '3m':…, '15m':…, vol }`. -/
structure MAState where
  tf1m : MATf
  tf3m : MATf
  tf15m : MATf
  vol : VolState
  deriving DecidableEq

inductive V2Emission where
  | spikeAlert (sym : Symbol) (dir : Direction) (ap z price ts : ℚ)
  | entry (sym : Symbol) (isLong : Bool) (price : ℚ)
  | trailArmed (sym : Symbol) (isLong : Bool) (entry peak trail : ℚ)
  | trailMoved (sym : Symbol) (isLong : Bool) (peak trail : ℚ)
  | trailExit (sym : Symbol) (isLong : Bool) (price entry peak trail : ℚ)
  | confluence (sym : Symbol) (side : Direction) (score : ℤ)
  deriving DecidableEq

/-- `kKey(sym, isLong)`. -/
def kKey (sym : Symbol) (isLong : Bool) : Symbol :=
  sym ++ "|" ++ (if isLong then "L" else "S")

/-- `updateTrail(sym, dir, price, tsISO)` over the `trails` map, with the
`onEntry` / `onTrailArmed` / `onTrailMoved` / `onTrailExit` emissions
(src/src/index.js lines 117–167); `onTrailExit` deletes the key. -/
def updateTrailMap (enable : Bool) (tcfg : TrailConfig)
    (trails : Symbol → Option TrailSt) (sym : Symbol) (dir : Direction)
    (price : ℚ) : (Symbol → Option TrailSt) × List V2Emission :=
  if enable = false then (trails, [])
  else
    let isLong : Bool := dir = Direction.UP
    let key := kKey sym isLong
    match trails key with
    | none =>
        (setMap trails key (trailEntry price), [.entry sym isLong price])
    | some st =>
        match st.phase with
        | .armed =>
            let fav := if isLong then (price - st.entry) / st.entry
                       else (st.entry - price) / st.entry
            if tcfg.startAfterPct ≤ fav then
              let peak := price
              let trail := if isLong then peak * (1 - tcfg.distancePct)
                           else peak * (1 + tcfg.distancePct)
              (setMap trails key ⟨.inTrail, st.entry, peak, some trail⟩,
                [.trailArmed sym isLong st.entry peak trail])
            else (trails, [])
        | .inTrail =>
            let movedSt : Option TrailSt :=
              if isLong = true ∧ st.peak < price then
                some ⟨.inTrail, st.entry, price,
                  some (price * (1 - tcfg.distancePct))⟩
              else if isLong = false ∧ price < st.peak then
                some ⟨.inTrail, st.entry, price,
                  some (price * (1 + tcfg.distancePct))⟩
              else none
            let st1 := movedSt.getD st
            let em1 : List V2Emission :=
              match movedSt with
              | some s => [.trailMoved sym isLong s.peak (s.trail.getD 0)]
              | none => []
            let hit := if isLong then price ≤ st1.trail.getD 0
                       else st1.trail.getD 0 ≤ price
            if hit then
              (fun s => if s = key then none else trails s,
                em1 ++ [.trailExit sym isLong price st1.entry st1.peak
                  (st1.trail.getD 0)])
            else (setMap trails key st1, em1)

/-- The v2 worker's per-symbol state touched by the message handler. -/
structure V2State where
  spike : SpikeState
  cdSpike : Symbol → Option ℚ
  trails : Symbol → Option TrailSt
  books : Symbol → Option Book
  ma : Symbol → Option MAState
  cdConfluence : Symbol → Option ℚ

/-- The confluence evaluation block (src/src/index.js lines 363–464): it
updates the per-symbol `maState` and `cdConfluence` maps and may emit a
confluence alert.  It is kept as a parameter because its volume z-score
uses `Math.sqrt`; it runs strictly *after* the row guard, so the frame
theorem below holds for every instantiation, in particular the real one
(its gate logic is modelled separately as `confluenceEmit`). -/
def ConflBlock : Type :=
  (Symbol → Option MAState) → (Symbol → Option ℚ) → Symbol → List Bar → ℚ →
    (Symbol → Option MAState) × (Symbol → Option ℚ) × List V2Emission

structure V2Config where
  spikeCfg : SpikeConfig
  cooldownSec : ℚ
  trailEnable : Bool
  trail : TrailConfig
  candleHistory : ℚ
  confluenceOn : Bool

/-- One iteration of the v2 `for (const x of msg.data)` body
(src/src/index.js lines 337–464): guard, spike engine with its own
`cdSpike` cooldown gating the alert + trailing update, the 1-minute candle
roll, and — when 30 bars of history and the 3m/15m aggregates exist — the
confluence block. -/
def processRowV2 (cfg : V2Config) (confl : ConflBlock) (use : List Symbol)
    (st : V2State) (x : TickerRow) (ts : ℤ) : V2State × List V2Emission :=
  match x.symbol with
  | none => (st, [])
  | some sym =>
      if sym ∉ use then (st, [])
      else
        let price := (x.lastPrice).getD 0
        if ¬ (0 < price) then (st, [])
        else
          let su := updateSpikeWorker cfg.spikeCfg st.spike sym price (ts : ℚ)
          let st1 : V2State := { st with spike := su.1 }
          let pr : V2State × List V2Emission :=
            match su.2 with
            | some (.spike dir ap z) =>
                if (st1.cdSpike sym).getD 0 ≤ (ts : ℚ) then
                  let tr := updateTrailMap cfg.trailEnable cfg.trail
                    st1.trails sym dir price
                  ({ st1 with
                      trails := tr.1,
                      cdSpike := setMap st1.cdSpike sym
                        ((ts : ℚ) + cfg.cooldownSec * 1000) },
                    .spikeAlert sym dir ap z price (ts : ℚ) :: tr.2)
                else (st1, [])
            | _ => (st1, [])
          let book := rollTick 60000 cfg.candleHistory
            ((pr.1.books sym).getD Book.empty) price ts
          let st3 : V2State := { pr.1 with books := setMap pr.1.books sym book }
          if cfg.confluenceOn ∧ 30 ≤ book.m1.length then
            match aggregateN book.m1 3, aggregateN book.m1 15 with
            | some _, some _ =>
                let r := confl st3.ma st3.cdConfluence sym book.m1 (ts : ℚ)
                ({ st3 with ma := r.1, cdConfluence := r.2.1 },
                  pr.2 ++ r.2.2)
            | _, _ => (st3, pr.2)
          else (st3, pr.2)

/-- C9: a ticker row whose symbol is missing or outside the active universe
set, or whose price does not parse to a number > 0, is dropped by both feed
dispatchers with no observable effect: the full worker state (price
history, spike maps, recent buffer; spike/trail/candle/MA/cooldown maps) is
returned exactly unchanged and no alert is emitted to any sink. -/
theorem invalid_tick_dropped (cfg1 : SpikeConfig) (st1 : V1State)
    (cfg2 : V2Config) (confl : ConflBlock) (use : List Symbol)
    (st2 : V2State) (x : TickerRow) (ts1 : ℚ) (ts2 : ℤ)
    (h : (match x.symbol with | none => True | some s => s ∉ use) ∨
      (x.lastPrice).getD 0 ≤ 0) :
    processRowV1 cfg1 use st1 x ts1 = (st1, []) ∧
    processRowV2 cfg2 confl use st2 x ts2 = (st2, []) := by
  cases hx : x.symbol with
  | none =>
      constructor
      · unfold processRowV1; rw [hx]
      · unfold processRowV2; rw [hx]
  | some s =>
      rw [hx] at h
      simp only [] at h
      constructor
      · unfold processRowV1
        rw [hx]
        simp only []
        rcases h with h | h
        · rw [if_pos (Or.inr h)]
        · by_cases hm : s = "" ∨ s ∉ use
          · rw [if_pos hm]
          · rw [if_neg hm, if_pos h]
      · unfold processRowV2
        rw [hx]
        simp only []
        rcases h with h | h
        · rw [if_pos h]
        · by_cases hm : s ∉ use
          · rw [if_pos hm]
          · rw [if_neg hm, if_pos (not_lt.mpr h)]

/-- Witness for C9: the symbol `FAKE_USDT` is not in the active set
`["BTC_USDT"]`, so the row is dropped by both dispatchers from fresh
states. -/
theorem invalid_tick_dropped_witness :
    processRowV1 ⟨5, 0, 4, 45⟩ ["BTC_USDT"]
        ⟨fun _ => none, SpikeState.init, []⟩
        ⟨some "FAKE_USDT", some 5⟩ 1000 =
      (⟨fun _ => none, SpikeState.init, []⟩, []) ∧
    processRowV2 ⟨⟨5, 0, 3, 20⟩, 20, true, ⟨0, 0⟩, 90, true⟩
        (fun m c _ _ _ => (m, c, [])) ["BTC_USDT"]
        ⟨SpikeState.init, fun _ => none, fun _ => none, fun _ => none,
          fun _ => none, fun _ => none⟩
        ⟨some "FAKE_USDT", some 5⟩ 1000 =
      (⟨SpikeState.init, fun _ => none, fun _ => none, fun _ => none,
          fun _ => none, fun _ => none⟩, []) :=
  invalid_tick_dropped ⟨5, 0, 4, 45⟩ ⟨fun _ => none, SpikeState.init, []⟩
    ⟨⟨5, 0, 3, 20⟩, 20, true, ⟨0, 0⟩, 90, true⟩
    (fun m c _ _ _ => (m, c, [])) ["BTC_USDT"]
    ⟨SpikeState.init, fun _ => none, fun _ => none, fun _ => none,
      fun _ => none, fun _ => none⟩
    ⟨some "FAKE_USDT", some 5⟩ 1000 1000 (Or.inl (by decide))

end MexcScanner
